import Mathlib

/-! # Charm bundles: reading and expanding (`charm/bundle.go`)

A shallow embedding of `charm/bundle.go` and a verification of its
specification.

Conventions of the embedding.

* Go strings are lists of characters (`GoString`).  The path functions only
  inspect the ASCII characters `/` and `.`, so working on characters instead
  of bytes changes nothing for UTF-8 text.
* Go functions with results `(value, err)` whose callers rely on the two
  results being exclusive are embedded as pairs `Option _ × Option Error`
  when the function is defined in `bundle.go` with named results
  (`readBundle`, `ReadBundle`, `ReadBundleBytes`), so that exclusivity is a
  theorem and not a typing artefact.  Library functions use `Except`.
* The operating system is an explicit file system `FS`, passed to every
  function that reads it; `ExpandTo` acts on a `World`: the file system, the
  list of handles currently open, and a trace of the per-entry steps.  The
  file system has directories and regular files, no links and no
  permissions; `os.MkdirAll` and `os.Create` fail when a file or a directory
  is in the way or a parent is missing.
* A source (`io.ReaderAt`) is an open file or a byte slice.  An open file is
  read when the read happens: what it serves is the content the file has at
  that moment, so an archive that is overwritten during its own expansion is
  read as overwritten.
* `archive/zip`, `ReadMeta` and `ReadConfig` are collaborators that are not
  part of `bundle.go`; they are the fields of `Env`.  The zip library gets
  at the source through `ReadAt` only, on the range `[0, size)` given to
  `zip.NewReader`; the directory, the opening of an entry and the content
  of its stream are functions of the bytes that `ReadAt` serves for that
  range when they are computed.
* `path/filepath`, `os.MkdirAll`, the slice expression and `copy` follow the
  Go library and language definitions.
-/

set_option autoImplicit false

namespace Charm

/-! ## Strings and `path/filepath` (Unix) -/

/-- Go strings, as lists of characters. -/
abbrev GoString := List Char

/-- Go `strings.HasSuffix`. -/
def HasSuffix (s suffix : GoString) : Bool :=
  suffix.isSuffixOf s

/-- The inner loop of the `..` case of `filepath.Clean`:
`out.w--; for out.w > dotdot && out.index(out.w) != '/' { out.w-- }`.
The argument is `out.w` before the first decrement, the result is the final
`out.w`. -/
def cleanBacktrack (buf : GoString) (dotdot : Nat) : Nat → Nat
  | 0 => 0
  | w + 1 => if dotdot < w ∧ buf.getD w ' ' ≠ '/' then cleanBacktrack buf dotdot w else w

/-- One iteration of the main loop of `filepath.Clean`, the `switch` on
`path[r]`.  `c :: t` is `path[r:]`, `out` is the written part of the output
buffer (`out.w = out.length`), `dotdot` is the index where `..` must stop.
The result is the new `path[r:]`, `out` and `dotdot`. -/
def cleanStep (rooted : Bool) (c : Char) (t : GoString) (out : GoString) (dotdot : Nat) :
    GoString × GoString × Nat :=
  if c = '/' then
    -- empty path element: r++
    (t, out, dotdot)
  else if c = '.' ∧ (t = [] ∨ t.head? = some '/') then
    -- . element: r++
    (t, out, dotdot)
  else if c = '.' ∧ t.head? = some '.' ∧ (t.drop 1 = [] ∨ (t.drop 1).head? = some '/') then
    -- .. element: r += 2, remove to last /
    if dotdot < out.length then
      -- can backtrack
      (t.drop 1, out.take (cleanBacktrack out dotdot out.length), dotdot)
    else if !rooted then
      -- cannot backtrack, but not rooted, so append .. element
      let out1 := if 0 < out.length then out ++ ['/'] else out
      (t.drop 1, out1 ++ ['.', '.'], (out1 ++ ['.', '.']).length)
    else
      (t.drop 1, out, dotdot)
  else
    -- real path element: add slash if needed, then copy the element
    let out1 :=
      if (rooted ∧ out.length ≠ 1) ∨ (!rooted ∧ out.length ≠ 0) then out ++ ['/'] else out
    ((c :: t).dropWhile (fun x => x ≠ '/'), out1 ++ (c :: t).takeWhile (fun x => x ≠ '/'), dotdot)

/-- The main loop of `filepath.Clean`, `for r < n`, with a bound on the
number of iterations.  Every iteration consumes at least one character, so
the bound `path.length` is never reached (`cleanLoop_enough`). -/
def cleanLoop (rooted : Bool) : Nat → GoString → GoString → Nat → GoString
  | 0, _, out, _ => out
  | _ + 1, [], out, _ => out
  | fuel + 1, c :: t, out, dotdot =>
    cleanLoop rooted fuel (cleanStep rooted c t out dotdot).1 (cleanStep rooted c t out dotdot).2.1
      (cleanStep rooted c t out dotdot).2.2

/-- Go `filepath.Clean` (Unix): the shortest path name equivalent to `path`
by purely lexical processing. -/
def Clean (path : GoString) : GoString :=
  if path = [] then ['.']
  else
    let rooted := path.head? = some '/'
    let out := cleanLoop rooted path.length (if rooted then path.drop 1 else path)
      (if rooted then ['/'] else []) (if rooted then 1 else 0)
    if out.length = 0 then ['.'] else out

/-- Go `filepath.Join` for two elements: empty leading elements are ignored,
the rest is joined with `/` and cleaned. -/
def Join (a b : GoString) : GoString :=
  if a ≠ [] then Clean (a ++ '/' :: b)
  else if b ≠ [] then Clean b
  else []

/-- Go `filepath.Split`: `i := strings.LastIndex(path, "/")`, the result is
`(path[:i+1], path[i+1:])`. -/
def Split (path : GoString) : GoString × GoString :=
  ((path.reverse.dropWhile (fun x => x ≠ '/')).reverse,
   (path.reverse.takeWhile (fun x => x ≠ '/')).reverse)

/-! ## Errors -/

/-- Error numbers of the operating system that the model can produce. -/
inductive Errno
  | ENOENT
  | EEXIST
  | ENOTDIR
  | EISDIR
  | EINVAL
  deriving DecidableEq, Repr

/-- Errors made by the Go libraries (`archive/zip`, `os`, `io`). -/
inductive LibError
  /-- An error of `archive/zip` (bad format, unsupported method, checksum). -/
  | zip (code : Nat)
  /-- An `*os.PathError`: operation, path and error number. -/
  | path (op : GoString) (path : GoString) (errno : Errno)
  /-- The value `os.EOF`. -/
  | eof
  /-- The value `io.ErrUnexpectedEOF`. -/
  | unexpectedEOF
  /-- A run-time panic inside a library call.  Go unwinds the callers on a
  panic; the model lists it among the errors so that the result types stay
  those of Go.  The reads of the zip library start at offset 0 and never
  panic (`served_bytes`). -/
  | panic
  deriving DecidableEq, Repr

/-- Go `os.Error` values seen by `bundle.go`. -/
inductive Error
  /-- An error built by `errorf` of package `charm`; the payload is the
  formatted message. -/
  | formatted (msg : GoString)
  /-- An error made by a library. -/
  | lib (e : LibError)
  deriving DecidableEq, Repr

/-- An `*os.PathError` as an `os.Error`. -/
def pathError (op : String) (p : GoString) (errno : Errno) : Error :=
  Error.lib (LibError.path op.toList p errno)

/-- Modelled from the spec: `errorf` is a helper of package `charm` that is
not part of `bundle.go`.  It formats its arguments like `fmt.Sprintf` and
wraps the message in an error (spec: the failure is "formatted with the
missing entry's name").  Only the format `"... %s"` with one string argument
is used by `bundle.go`; `fmt` is the text before `%s`. -/
def errorf (fmt : GoString) (arg : GoString) : Error :=
  Error.formatted (fmt ++ arg)

/-! ## The operating system -/

/-- Bytes. -/
abbrev Byte := Nat

/-- A node of the file system. -/
inductive Node
  | dir
  | file (data : List Byte)
  deriving DecidableEq, Repr

/-- A file system: a map from path names to nodes.  A node is stored under
its name without trailing slashes (`key`); the root and the current
directory always exist.  There are no links and no permissions, and the
model is meant for lexically clean path names, which are the only ones
`ExpandTo` uses. -/
abbrev FS := GoString → Option Node

/-- Pointwise update of a file system. -/
def FS.set (fs : FS) (k : GoString) (n : Node) : FS :=
  fun q => if q = k then some n else fs q

/-- A path without its trailing slashes. -/
def trimSlash (p : GoString) : GoString :=
  (p.reverse.dropWhile (fun x => x = '/')).reverse

/-- The name under which the file system stores `p`. -/
def key (p : GoString) : GoString :=
  if trimSlash p = [] then ['/'] else trimSlash p

/-- The node stored for `p`, if any. -/
def lookup (fs : FS) (p : GoString) : Option Node :=
  if p = [] then none
  else if key p = ['/'] ∨ key p = ['.'] then some Node.dir
  else fs (key p)

/-- `os.Stat`, reduced to the node found (`none`: the call fails).  A name
with a trailing slash does not resolve to a regular file. -/
def stat (fs : FS) (p : GoString) : Option Node :=
  match lookup fs p with
  | some (Node.file d) => if HasSuffix p ['/'] then none else some (Node.file d)
  | some Node.dir => some Node.dir
  | none => none

/-- The ancestors of a path, shortest first: its non-empty prefixes that a
separator follows. -/
def ancestors (p : GoString) : List GoString :=
  p.inits.filter (fun q => q ≠ [] ∧ (p.drop q.length).head? = some '/')

/-- The error number of a path that does not resolve.  The path is resolved
from the left: `ENOTDIR` when the first ancestor that is not a directory is
a regular file, `ENOENT` when it is missing or when only the last element is
missing. -/
def statErrno (fs : FS) (p : GoString) : Errno :=
  match (ancestors p).find? (fun q => lookup fs q ≠ some Node.dir) with
  | some q =>
    match lookup fs q with
    | some (Node.file _) => Errno.ENOTDIR
    | _ => Errno.ENOENT
  | none => Errno.ENOENT

/-- Whether the directory that is to contain `p` exists. -/
def parentIsDir (fs : FS) (p : GoString) : Bool :=
  let d := (Split (key p)).1
  if d = [] then true else stat fs d = some Node.dir

/-- The error number when the directory that is to contain `p` is missing
or is a file. -/
def parentErrno (fs : FS) (p : GoString) : Errno :=
  statErrno fs p

/-- `os.Mkdir`. -/
def osMkdir (fs : FS) (p : GoString) : FS × Option Error :=
  if p = [] then (fs, some (pathError "mkdir" p Errno.ENOENT))
  else if lookup fs p ≠ none then (fs, some (pathError "mkdir" p Errno.EEXIST))
  else if parentIsDir fs p then (fs.set (key p) Node.dir, none)
  else (fs, some (pathError "mkdir" p (parentErrno fs p)))

/-- The parent that `os.MkdirAll` creates first: with `i` the length of
`path` without trailing slashes and `j` the start of its last element, the
parent is `path[0:j-1]` when `j > 1`. -/
def mkdirParent (p : GoString) : Option GoString :=
  let d := (Split (trimSlash p)).1
  if 1 < d.length then some d.dropLast else none

/-- The last part of `os.MkdirAll`: `Mkdir(path)`, and when that fails, the
check whether the directory exists after all. -/
def mkdirLast (fs : FS) (p : GoString) : FS × Option Error :=
  match osMkdir fs p with
  | (fs1, none) => (fs1, none)
  | (fs1, some err) => if stat fs1 p = some Node.dir then (fs1, none) else (fs1, some err)

/-- `os.MkdirAll` with a bound on the depth of the recursion.  The parent of
a path is strictly shorter than the path, so `fuel = path.length` is never
used up (`mkdirAllFuel_enough`). -/
def mkdirAllFuel : Nat → FS → GoString → FS × Option Error
  | 0, fs, p =>
    match stat fs p with
    | some Node.dir => (fs, none)
    | some (Node.file _) => (fs, some (pathError "mkdir" p Errno.ENOTDIR))
    | none =>
      match mkdirParent p with
      | none => mkdirLast fs p
      | some _ => (fs, some (pathError "mkdir" p Errno.ENOENT))
  | fuel + 1, fs, p =>
    match stat fs p with
    | some Node.dir => (fs, none)
    | some (Node.file _) => (fs, some (pathError "mkdir" p Errno.ENOTDIR))
    | none =>
      match mkdirParent p with
      | none => mkdirLast fs p
      | some parent =>
        match mkdirAllFuel fuel fs parent with
        | (fs1, some err) => (fs1, some err)
        | (fs1, none) => mkdirLast fs1 p

/-- `os.MkdirAll(path, 0755)`. -/
def osMkdirAll (fs : FS) (p : GoString) : FS × Option Error :=
  mkdirAllFuel p.length fs p

/-- An `*os.File` opened for reading.  It is a handle: what it serves is the
content that the file of this name has when the read happens. -/
structure File where
  name : GoString
  deriving DecidableEq, Repr

/-- `os.FileInfo`, reduced to the size. -/
structure FileInfo where
  Size : Int
  deriving DecidableEq, Repr

/-- `os.Open`. -/
def osOpen (fs : FS) (p : GoString) : Except Error File :=
  match stat fs p with
  | none => Except.error (pathError "open" p (statErrno fs p))
  | some _ => Except.ok { name := p }

/-- `(*os.File).Stat`.  The size that a directory reports depends on the
file system and is not modelled: reading a directory fails whatever the size
asked for (`File.ReadAt`). -/
def File.Stat (fs : FS) (f : File) : Except Error FileInfo :=
  match stat fs f.name with
  | some (Node.file d) => Except.ok { Size := (d.length : Int) }
  | some Node.dir => Except.ok { Size := 0 }
  | none => Except.error (pathError "stat" f.name (statErrno fs f.name))

/-- `os.Create`: create or truncate the file `p`.  The result is the name
under which the open file writes. -/
def osCreate (fs : FS) (p : GoString) : FS × Except Error GoString :=
  if p = [] then (fs, Except.error (pathError "open" p Errno.ENOENT))
  else if HasSuffix p ['/'] then (fs, Except.error (pathError "open" p Errno.EISDIR))
  else if stat fs p = some Node.dir then (fs, Except.error (pathError "open" p Errno.EISDIR))
  else if parentIsDir fs p then (fs.set p (Node.file []), Except.ok p)
  else (fs, Except.error (pathError "open" p (parentErrno fs p)))

/-! ## Random-access sources -/

/-- Go `type readAtBytes []byte`. -/
abbrev readAtBytes := List Byte

/-- The Go slice expression `b[off:]`: it panics (`none`) unless
`0 ≤ off ≤ len(b)`. -/
def sliceFrom (b : List Byte) (off : Int) : Option (List Byte) :=
  if 0 ≤ off ∧ off ≤ (b.length : Int) then some (b.drop off.toNat) else none

/-- The Go builtin `copy(dst, src)`: the number of bytes copied, which is
the smaller of the two lengths, and `dst` after the call. -/
def copyBytes (dst src : List Byte) : Nat × List Byte :=
  let n := min dst.length src.length
  (n, src.take n ++ dst.drop n)

/-- Go `func (b readAtBytes) ReadAt(out []byte, off int64) (n int, err os.Error)`
with body `return copy(out, b[off:]), nil`.  The result is `none` when the
call panics, and otherwise `n`, `err` and the contents of `out` after the
call. -/
def readAtBytes.ReadAt (b : readAtBytes) (out : List Byte) (off : Int) :
    Option (Nat × Option Error × List Byte) :=
  match sliceFrom b off with
  | none => none
  | some src => some ((copyBytes out src).1, none, (copyBytes out src).2)

/-- `(*os.File).ReadAt`: a positioned read of the file as it is now.  It
fills `out` with what the file holds from `off` on, and returns `os.EOF`
when that is less than `len(out)`.  Reading a directory fails. -/
def File.ReadAt (fs : FS) (f : File) (out : List Byte) (off : Int) :
    Nat × Option Error × List Byte :=
  match stat fs f.name with
  | some (Node.file d) =>
    if off < 0 then (0, some (pathError "read" f.name Errno.EINVAL), out)
    else
      ((copyBytes out (d.drop off.toNat)).1,
        if (copyBytes out (d.drop off.toNat)).1 < out.length then some (Error.lib LibError.eof)
        else none,
        (copyBytes out (d.drop off.toNat)).2)
  | _ => (0, some (pathError "read" f.name Errno.EISDIR), out)

/-- An `io.ReaderAt` as used by `bundle.go`: an open file or a byte slice. -/
inductive ReaderAt
  | file (f : File)
  | bytes (b : readAtBytes)
  deriving DecidableEq, Repr

/-- The method `ReadAt` of an `io.ReaderAt`, on the file system `fs`. -/
def ReaderAt.ReadAt (fs : FS) : ReaderAt → List Byte → Int →
    Option (Nat × Option Error × List Byte)
  | ReaderAt.file f, out, off => some (File.ReadAt fs f out off)
  | ReaderAt.bytes b, out, off => readAtBytes.ReadAt b out off

/-- What the zip library obtains from the source `r` on the file system
`fs`: it reads the range `[0, size)` through `ReadAt`.  The result is the
bytes served, which are fewer than `size` when the source has become
shorter (`os.EOF` ends the read without being an error), or the error of
the read. -/
def served (fs : FS) (r : ReaderAt) (size : Int) : Except Error (List Byte) :=
  match r.ReadAt fs (List.replicate size.toNat 0) 0 with
  | none => Except.error (Error.lib LibError.panic)
  | some (n, none, out) => Except.ok (out.take n)
  | some (n, some err, out) =>
    if err = Error.lib LibError.eof then Except.ok (out.take n) else Except.error err

/-! ## `archive/zip` and the parsers -/

/-- A `*zip.File`: the entry name, and what else the directory of the
archive records about the entry (offsets, sizes, method, checksum), kept
abstract. -/
structure ZipFile where
  Name : GoString
  info : List Nat
  deriving DecidableEq, Repr

/-- The `io.ReadCloser` that `(*zip.File).Open` returns: the stream of one
entry, not yet read. -/
structure EntryReader where
  info : List Nat
  deriving DecidableEq, Repr

/-- A `*zip.Reader`: the source it reads, and the entries in archive
order. -/
structure ZipReader where
  r : ReaderAt
  size : Int
  File : List ZipFile

/-- What reading a stream to its end yields: the bytes delivered, and the
error that ended the stream (`none`: a clean end of file). -/
structure Stream where
  bytes : List Byte
  err : Option Error
  deriving DecidableEq, Repr

/-- The collaborators of `bundle.go`.

* `NewReader`, `Open` and `Read` are `archive/zip`: the directory parser
  behind `zip.NewReader`, the opening of an entry, and the reading of an
  entry stream to its end.  Each is a function of the bytes that the source
  serves for `[0, size)` at the moment of the call.
* `ReadMeta` and `ReadConfig` are the document parsers, which return a
  pointer (here an `Option`) and an error, as in Go.
* Two facts about `archive/zip` are part of the interface: a source that
  serves no byte is not an archive, and a stream that reads a source that
  serves no byte delivers no byte. -/
structure Env (Meta Config : Type) where
  NewReader : List Byte → Int → Except LibError (List ZipFile)
  Open : ZipFile → List Byte → Except LibError EntryReader
  Read : EntryReader → List Byte → List Byte × Option LibError
  ReadMeta : Stream → Option Meta × Option Error
  ReadConfig : Stream → Option Config × Option Error
  NewReader_nothing : ∀ size, ∃ e, NewReader [] size = Except.error e
  Read_nothing : ∀ rd, (Read rd []).1 = []

variable {M C : Type}

/-- Go `zip.NewReader(r, size)`, called on the file system `fs`. -/
def zipNewReader (env : Env M C) (fs : FS) (r : ReaderAt) (size : Int) :
    Except Error ZipReader :=
  match served fs r size with
  | Except.error err => Except.error err
  | Except.ok bs =>
    match env.NewReader bs size with
    | Except.error e => Except.error (Error.lib e)
    | Except.ok files => Except.ok { r := r, size := size, File := files }

/-- Go `(*zip.File).Open`, called on the file system `fs`; `zipr` is the
reader the file belongs to. -/
def ZipFile.Open (env : Env M C) (fs : FS) (zipr : ZipReader) (fh : ZipFile) :
    Except Error EntryReader :=
  match served fs zipr.r zipr.size with
  | Except.error err => Except.error err
  | Except.ok bs =>
    match env.Open fh bs with
    | Except.error e => Except.error (Error.lib e)
    | Except.ok rd => Except.ok rd

/-- Reading an entry stream to its end on the file system `fs`. -/
def EntryReader.readAll (env : Env M C) (fs : FS) (zipr : ZipReader) (rd : EntryReader) :
    Stream :=
  match served fs zipr.r zipr.size with
  | Except.error err => { bytes := [], err := some err }
  | Except.ok bs => { bytes := (env.Read rd bs).1, err := (env.Read rd bs).2.map Error.lib }

/-- `io.Copy(f, zf)`: everything read from `zf` is written to the file, and
the error that ended the reading, if any, is returned.  The stream is read
from the source as it is after `os.Create`; writing what was read cannot
change what is read, because a destination that is the source itself has
just been truncated and then serves no byte, so that nothing is read
(`Env.Read_nothing`). -/
def ioCopy (env : Env M C) (fs : FS) (zipr : ZipReader) (f : GoString) (zf : EntryReader) :
    FS × Option Error :=
  (fs.set f (Node.file (zf.readAll env fs zipr).bytes), (zf.readAll env fs zipr).err)

/-! ## `bundle.go` -/

/-- Go `type Bundle struct`. -/
structure Bundle (M C : Type) where
  Path : GoString
  meta : Option M
  config : Option C
  r : ReaderAt
  size : Int

/-- The loop of `zipOpen` over `zipr.File`. -/
def zipOpenLoop (env : Env M C) (fs : FS) (zipr : ZipReader) (path : GoString) :
    List ZipFile → Except Error EntryReader
  | [] => Except.error (errorf "bundle file not found: ".toList path)
  | fh :: rest =>
    if fh.Name = path then fh.Open env fs zipr else zipOpenLoop env fs zipr path rest

/-- Go `zipOpen`. -/
def zipOpen (env : Env M C) (fs : FS) (zipr : ZipReader) (path : GoString) :
    Except Error EntryReader :=
  zipOpenLoop env fs zipr path zipr.File

/-- Go `readBundle`, with its named results `(bundle, err)`.  A bare `return`
returns `bundle`, which is still nil, and the current `err`. -/
def readBundle (env : Env M C) (fs : FS) (r : ReaderAt) (size : Int) :
    Option (Bundle M C) × Option Error :=
  let b : Bundle M C := { Path := [], meta := none, config := none, r := r, size := size }
  match zipNewReader env fs r size with
  | Except.error err => (none, some err)
  | Except.ok zipr =>
    match zipOpen env fs zipr "metadata.yaml".toList with
    | Except.error err => (none, some err)
    | Except.ok reader =>
      let b1 := { b with meta := (env.ReadMeta (reader.readAll env fs zipr)).1 }
      match (env.ReadMeta (reader.readAll env fs zipr)).2 with
      | some err => (none, some err)
      | none =>
        match zipOpen env fs zipr "config.yaml".toList with
        | Except.error err => (none, some err)
        | Except.ok reader2 =>
          let b2 := { b1 with config := (env.ReadConfig (reader2.readAll env fs zipr)).1 }
          match (env.ReadConfig (reader2.readAll env fs zipr)).2 with
          | some err => (none, some err)
          | none => (some b2, none)

/-- Go `ReadBundle`.  After `b, err := readBundle(f, fi.Size)` with a nil
`err`, the code dereferences `b`; `readBundle` never returns two nils
(`readBundle_exclusive`), so the last case is not reached. -/
def ReadBundle (env : Env M C) (fs : FS) (path : GoString) :
    Option (Bundle M C) × Option Error :=
  match osOpen fs path with
  | Except.error err => (none, some err)
  | Except.ok f =>
    match f.Stat fs with
    | Except.error err => (none, some err)
    | Except.ok fi =>
      match readBundle env fs (ReaderAt.file f) fi.Size with
      | (_, some err) => (none, some err)
      | (some b, none) => (some { b with Path := path }, none)
      | (none, none) => (none, none)

/-- A file system without any node.  `ReadBundleBytes` reads its byte slice
and nothing else, so it is given this one. -/
def emptyFS : FS :=
  fun _ => none

/-- Go `ReadBundleBytes`. -/
def ReadBundleBytes (env : Env M C) (data : List Byte) :
    Option (Bundle M C) × Option Error :=
  readBundle env emptyFS (ReaderAt.bytes data) (data.length : Int)

/-- Go `(*Bundle).Meta`. -/
def Bundle.Meta (b : Bundle M C) : Option M :=
  b.meta

/-- Go `(*Bundle).Config`. -/
def Bundle.Config (b : Bundle M C) : Option C :=
  b.config

/-! ## Expansion -/

/-- Handles that `ExpandTo` holds: files from `os.Open` and `os.Create`, and
entry streams from `header.Open()`. -/
inductive Handle
  | file (path : GoString)
  | entry (name : GoString)
  deriving DecidableEq, Repr

/-- The steps `ExpandTo` performs for an entry. -/
inductive Step
  | openEntry
  | mkdirAll
  | create
  | copy
  deriving DecidableEq, Repr

/-- A step performed for the entry `name` and its outcome. -/
structure Event where
  step : Step
  name : GoString
  err : Option Error
  deriving DecidableEq, Repr

/-- The state `ExpandTo` acts on: the file system, the handles that are
open, and the steps performed so far (most recent last). -/
structure World where
  fs : FS
  handles : List Handle
  trace : List Event

/-- Record an open handle. -/
def World.acquire (w : World) (h : Handle) : World :=
  { w with handles := h :: w.handles }

/-- The effect of `Close()` on a handle. -/
def World.release (w : World) (h : Handle) : World :=
  { w with handles := w.handles.erase h }

/-- Replace the file system and record a step. -/
def World.step (w : World) (fs : FS) (s : Step) (name : GoString) (err : Option Error) : World :=
  { w with fs := fs, trace := w.trace ++ [{ step := s, name := name, err := err }] }

/-- The body of the loop of `ExpandTo`, for one `header` of `zipr`; `st`
holds the world and the variable `lasterr`. -/
def expandEntry (env : Env M C) (zipr : ZipReader) (dir : GoString) (st : World × Option Error)
    (header : ZipFile) : World × Option Error :=
  let w := st.1
  let lasterr := st.2
  match header.Open env w.fs zipr with
  | Except.error err =>
    -- lasterr = err; continue
    (w.step w.fs Step.openEntry header.Name (some err), some err)
  | Except.ok zf =>
    let w1 := (w.step w.fs Step.openEntry header.Name none).acquire (Handle.entry header.Name)
    let path := Join dir (Clean header.Name)
    if HasSuffix header.Name ['/'] then
      match osMkdirAll w1.fs path with
      | (fs2, some err) =>
        -- zf.Close(); lasterr = err; continue
        ((w1.step fs2 Step.mkdirAll header.Name (some err)).release (Handle.entry header.Name),
          some err)
      | (fs2, none) =>
        -- continue
        (w1.step fs2 Step.mkdirAll header.Name none, lasterr)
    else
      let base := (Split path).1
      match osMkdirAll w1.fs base with
      | (fs2, some err) =>
        -- zf.Close(); lasterr = err; continue
        ((w1.step fs2 Step.mkdirAll header.Name (some err)).release (Handle.entry header.Name),
          some err)
      | (fs2, none) =>
        let w2 := w1.step fs2 Step.mkdirAll header.Name none
        match osCreate w2.fs path with
        | (fs3, Except.error err) =>
          -- zf.Close(); lasterr = err; continue
          ((w2.step fs3 Step.create header.Name (some err)).release (Handle.entry header.Name),
            some err)
        | (fs3, Except.ok f) =>
          let w3 := (w2.step fs3 Step.create header.Name none).acquire (Handle.file f)
          let w4 := w3.step (ioCopy env w3.fs zipr f zf).1 Step.copy header.Name
            (ioCopy env w3.fs zipr f zf).2
          let lasterr1 :=
            match (ioCopy env w3.fs zipr f zf).2 with
            | some err => some err
            | none => lasterr
          -- f.Close(); zf.Close()
          ((w4.release (Handle.file f)).release (Handle.entry header.Name), lasterr1)

/-- The part of `ExpandTo` after the source has been chosen: parse the
archive, then run the loop with `lasterr` initially nil. -/
def expandFrom (env : Env M C) (r : ReaderAt) (size : Int) (dir : GoString) (w : World) :
    World × Option Error :=
  match zipNewReader env w.fs r size with
  | Except.error err => (w, some err)
  | Except.ok zipr => zipr.File.foldl (expandEntry env zipr dir) (w, none)

/-- Go `(*Bundle).ExpandTo`.  The archive file opened from `b.Path` is closed
by the deferred `f.Close()` on every return that follows the `defer`. -/
def Bundle.ExpandTo (env : Env M C) (b : Bundle M C) (dir : GoString) (w : World) :
    World × Option Error :=
  if b.Path ≠ [] then
    match osOpen w.fs b.Path with
    | Except.error err => (w, some err)
    | Except.ok f =>
      let w1 := w.acquire (Handle.file b.Path)
      match f.Stat w.fs with
      | Except.error err => (w1.release (Handle.file b.Path), some err)
      | Except.ok fi =>
        ((expandFrom env (ReaderAt.file f) fi.Size dir w1).1.release (Handle.file b.Path),
          (expandFrom env (ReaderAt.file f) fi.Size dir w1).2)
  else
    expandFrom env b.r b.size dir w

/-! ## Notions used to state the properties -/

/-- All the steps of `readBundle` succeed on the file system `fs`: the
archive parses to `zipr`, the two entries open as `rd1` and `rd2`, and the
two parsers return no error on their streams. -/
def FullyRead (env : Env M C) (fs : FS) (r : ReaderAt) (size : Int) (zipr : ZipReader)
    (rd1 rd2 : EntryReader) : Prop :=
  zipNewReader env fs r size = Except.ok zipr ∧
  zipOpen env fs zipr "metadata.yaml".toList = Except.ok rd1 ∧
  (env.ReadMeta (rd1.readAll env fs zipr)).2 = none ∧
  zipOpen env fs zipr "config.yaml".toList = Except.ok rd2 ∧
  (env.ReadConfig (rd2.readAll env fs zipr)).2 = none

/-- The source that `ExpandTo` reads in the world `w` is `r` with `size`: the
retained source of a Bundle without a `Path`, and otherwise the file at
`Path`, opened and measured anew. -/
def Reopened (b : Bundle M C) (w : World) (r : ReaderAt) (size : Int) : Prop :=
  (b.Path = [] ∧ r = b.r ∧ size = b.size) ∨
  (b.Path ≠ [] ∧ ∃ f fi, osOpen w.fs b.Path = Except.ok f ∧ f.Stat w.fs = Except.ok fi ∧
    r = ReaderAt.file f ∧ size = fi.Size)

/-- The error of the latest failed step of a trace. -/
def lastFailure : List Event → Option Error
  | [] => none
  | ev :: rest =>
    match lastFailure rest with
    | some e => some e
    | none => ev.err

/-- The destination path `ExpandTo` computes for an entry. -/
def destPath (dir : GoString) (header : ZipFile) : GoString :=
  Join dir (Clean header.Name)

/-- A path is lexically inside `dir`: it is `dir` or it starts with `dir`
followed by a separator. -/
def lexicallyInside (dir p : GoString) : Bool :=
  p = dir ∨ (dir ++ ['/']).isPrefixOf p

/-- What one pass of the loop body of `ExpandTo` does to the file system,
and the failure it records, if any: `expandEntry` without the handles, the
trace and the old value of `lasterr` (`expandEntry_spec`). -/
def expandEntryFS (env : Env M C) (zipr : ZipReader) (dir : GoString) (fs : FS)
    (header : ZipFile) : FS × Option Error :=
  match header.Open env fs zipr with
  | Except.error err => (fs, some err)
  | Except.ok zf =>
    if HasSuffix header.Name ['/'] then osMkdirAll fs (Join dir (Clean header.Name))
    else
      match osMkdirAll fs (Split (Join dir (Clean header.Name))).1 with
      | (fs2, some err) => (fs2, some err)
      | (fs2, none) =>
        match osCreate fs2 (Join dir (Clean header.Name)) with
        | (fs3, Except.error err) => (fs3, some err)
        | (fs3, Except.ok f) => ioCopy env fs3 zipr f zf

/-- The file system after the loop of `ExpandTo` over `l`. -/
def expandLoopFS (env : Env M C) (zipr : ZipReader) (dir : GoString) : List ZipFile → FS → FS
  | [], fs => fs
  | h :: rest, fs => expandLoopFS env zipr dir rest (expandEntryFS env zipr dir fs h).1

/-- No step of the loop of `ExpandTo` over `l` fails. -/
def expandLoopOk (env : Env M C) (zipr : ZipReader) (dir : GoString) : List ZipFile → FS → Prop
  | [], _ => True
  | h :: rest, fs =>
    (expandEntryFS env zipr dir fs h).2 = none ∧
      expandLoopOk env zipr dir rest (expandEntryFS env zipr dir fs h).1

/-- Written from the specification (section 4.3, step 3), not from the
code: the steps to perform for one entry on the file system `fs`, in order,
each with its outcome.  The entry is opened; a name that ends with a
separator is a directory marker, for which the directory is created at the
destination; otherwise the parent directory is created, then the file, then
the content is copied; the first step that fails is the last step of the
entry. -/
def specEntrySteps (env : Env M C) (zipr : ZipReader) (dir : GoString) (fs : FS)
    (header : ZipFile) : List Event :=
  match header.Open env fs zipr with
  | Except.error err => [{ step := Step.openEntry, name := header.Name, err := some err }]
  | Except.ok zf =>
    { step := Step.openEntry, name := header.Name, err := none } ::
    if HasSuffix header.Name ['/'] then
      [{ step := Step.mkdirAll, name := header.Name,
         err := (osMkdirAll fs (destPath dir header)).2 }]
    else
      { step := Step.mkdirAll, name := header.Name,
        err := (osMkdirAll fs (Split (destPath dir header)).1).2 } ::
      if (osMkdirAll fs (Split (destPath dir header)).1).2 ≠ none then []
      else
        match osCreate (osMkdirAll fs (Split (destPath dir header)).1).1 (destPath dir header) with
        | (_, Except.error err) =>
          [{ step := Step.create, name := header.Name, err := some err }]
        | (fs3, Except.ok f) =>
          [{ step := Step.create, name := header.Name, err := none },
           { step := Step.copy, name := header.Name, err := (ioCopy env fs3 zipr f zf).2 }]

/-- Written from the specification: the steps for the entries `l`, in
archive order, each entry on the file system that the entries before it
have left. -/
def specSteps (env : Env M C) (zipr : ZipReader) (dir : GoString) : List ZipFile → FS → List Event
  | [], _ => []
  | h :: rest, fs =>
    specEntrySteps env zipr dir fs h ++
      specSteps env zipr dir rest (expandEntryFS env zipr dir fs h).1

/-- The file system `B` has the directories of `A`, and has a file
wherever `A` has one. -/
def Extends (A B : FS) : Prop :=
  ∀ q, (A q = some Node.dir → B q = some Node.dir) ∧
    (∀ c, A q = some (Node.file c) → ∃ c1, B q = some (Node.file c1))

/-- The name under which the file system stores the source, when the source
is a file. -/
def srcKey : ReaderAt → Option GoString
  | ReaderAt.file f => some (key f.name)
  | ReaderAt.bytes _ => none

/-- No file entry of `files` has the source itself as destination: the
expansion into `dir` does not write over the archive it reads. -/
def NotOverwritten (r : ReaderAt) (dir : GoString) (files : List ZipFile) : Prop :=
  ∀ k, srcKey r = some k → ∀ h ∈ files, HasSuffix h.Name ['/'] = false → destPath dir h ≠ k

/-! ## A small instance of the collaborators, for concrete runs -/

/-- An entry, stored without compression, with the given content. -/
def goodEntry (name : String) (data : List Byte) : ZipFile :=
  { Name := name.toList, info := 0 :: data }

/-- An entry whose stream cannot be opened. -/
def badEntry (name : String) (code : Nat) : ZipFile :=
  { Name := name.toList, info := [1, code] }

/-- The entries of the archive of the specification's example: `a/`,
`a/b.txt` with content "hello", and the crafted `c/../../etc/evil`. -/
def demoEntries : List ZipFile :=
  [goodEntry "metadata.yaml" [1], goodEntry "config.yaml" [2], goodEntry "a/" [],
   goodEntry "a/b.txt" [104, 101, 108, 108, 111], goodEntry "c/../../etc/evil" [66]]

/-- A bundle with one directory marker. -/
def dirEntries : List ZipFile :=
  [goodEntry "metadata.yaml" [1], goodEntry "config.yaml" [2], goodEntry "hooks/" []]

/-- A bundle whose last entry is an empty file named `x`. -/
def selfEntries : List ZipFile :=
  [goodEntry "metadata.yaml" [1], goodEntry "config.yaml" [2], goodEntry "x" []]

/-- A bundle with two unreadable entries around a readable one. -/
def brokenEntries : List ZipFile :=
  [goodEntry "metadata.yaml" [1], badEntry "b1" 7, goodEntry "config.yaml" [2], badEntry "b2" 9,
   goodEntry "ok.txt" [5]]

/-- A bundle without `config.yaml`. -/
def noConfigEntries : List ZipFile :=
  [goodEntry "metadata.yaml" [1], goodEntry "Config.yaml" [2], goodEntry "config.yaml.bak" [2]]

/-- A bundle with an empty entry `x` followed by an entry `y`. -/
def overEntries : List ZipFile :=
  [goodEntry "x" [], goodEntry "y" [104, 105]]

/-- Opening an entry of the instance, on a source that still begins with
the signature. -/
def demoOpen (fh : ZipFile) : Except LibError EntryReader :=
  match fh.info with
  | 0 :: _ => Except.ok { info := fh.info }
  | 1 :: code :: _ => Except.error (LibError.zip code)
  | _ => Except.error (LibError.zip 0)

/-- The content of a stream of the instance, on a source that still begins
with the signature. -/
def demoContent (rd : EntryReader) : List Byte × Option LibError :=
  match rd.info with
  | 0 :: data => (data, none)
  | _ => ([], some (LibError.zip 0))

/-- How a stream of the instance ends on a source that has lost its bytes:
cleanly when the entry is empty, with an unexpected end otherwise. -/
def demoShort (rd : EntryReader) : Option LibError :=
  match rd.info with
  | [0] => none
  | _ => some LibError.unexpectedEOF

/-- A zip library defined on six byte strings that stand for the archives
above; every other byte string, the empty one included, is rejected as not
being an archive.  Entries open and are read as long as the source begins
with the two bytes of the signature.  The document parsers accept every
stream that ends cleanly and return its bytes. -/
def demoEnv : Env (List Byte) (List Byte) where
  NewReader := fun bs _ =>
    if bs = [80, 75, 1] then Except.ok demoEntries
    else if bs = [80, 75, 2] then Except.ok dirEntries
    else if bs = [80, 75, 3] then Except.ok selfEntries
    else if bs = [80, 75, 4] then Except.ok brokenEntries
    else if bs = [80, 75, 5] then Except.ok noConfigEntries
    else if bs = [80, 75, 6] then Except.ok overEntries
    else Except.error (LibError.zip 0)
  Open := fun fh bs => if bs.take 2 = [80, 75] then demoOpen fh else Except.error LibError.eof
  Read := fun rd bs => if bs.take 2 = [80, 75] then demoContent rd else ([], demoShort rd)
  ReadMeta := fun s =>
    match s.err with
    | none => (some s.bytes, none)
    | some e => (none, some e)
  ReadConfig := fun s =>
    match s.err with
    | none => (some s.bytes, none)
    | some e => (none, some e)
  NewReader_nothing := fun _ => ⟨LibError.zip 0, rfl⟩
  Read_nothing := fun _ => rfl

/-- A world with an empty file system and no open handle. -/
def emptyWorld : World :=
  { fs := emptyFS, handles := [], trace := [] }

/-- A file system with the directory `/srv/T` and, in it, the archive
`[80, 75, 3]` under the name `x`. -/
def selfFS : FS :=
  ((emptyFS.set "/srv".toList Node.dir).set "/srv/T".toList Node.dir).set "/srv/T/x".toList
    (Node.file [80, 75, 3])

/-- The world of `selfFS`, with no open handle. -/
def selfWorld : World :=
  { fs := selfFS, handles := [], trace := [] }

/-- The bundle that `ReadBundle` builds from the archive `/srv/T/x` of
`selfFS`. -/
def selfBundle : Bundle (List Byte) (List Byte) :=
  { Path := "/srv/T/x".toList, meta := some [1], config := some [2],
    r := ReaderAt.file { name := "/srv/T/x".toList }, size := 3 }

/-- A file system whose only node is the archive `[80, 75, 1]`, under the
name `/b.charm`. -/
def charmFS : FS :=
  emptyFS.set "/b.charm".toList (Node.file [80, 75, 1])

/-- The world of `charmFS`, with no open handle. -/
def charmWorld : World :=
  { fs := charmFS, handles := [], trace := [] }

/-- The bundle that `ReadBundle` builds from the archive `/b.charm` of
`charmFS`. -/
def charmBundle : Bundle (List Byte) (List Byte) :=
  { Path := "/b.charm".toList, meta := some [1], config := some [2],
    r := ReaderAt.file { name := "/b.charm".toList }, size := 3 }

/-- A bundle read from bytes, as `ReadBundleBytes` builds it. -/
def memBundle (data : List Byte) : Bundle (List Byte) (List Byte) :=
  { Path := [], meta := some [1], config := some [2], r := ReaderAt.bytes data,
    size := (data.length : Int) }

end Charm

namespace Charm

variable {M C : Type}

/-! ## The buffer-backed source -/

/-- C7: for `0 ≤ off ≤ len(b)`, `ReadAt` returns `n = min(len(out), len(b) - off)`
and a nil error, the first `n` bytes of `out` are `b[off .. off+n]`, the
other bytes of `out` are unchanged, and `n = 0` when `off = len(b)`. -/
theorem readAt_copies_available (b out : List Byte) (off : Int)
    (h0 : 0 ≤ off) (h1 : off ≤ (b.length : Int)) :
    ∃ n out1, readAtBytes.ReadAt b out off = some (n, none, out1) ∧
      n = min out.length (b.length - off.toNat) ∧
      out1.length = out.length ∧
      out1.take n = (b.drop off.toNat).take n ∧
      out1.drop n = out.drop n ∧
      (off = (b.length : Int) → n = 0) := by
  have hlen : min out.length (b.length - off.toNat) ≤ b.length - off.toNat := min_le_right _ _
  have hlen2 : min out.length (b.length - off.toNat) ≤ out.length := min_le_left _ _
  refine ⟨min out.length (b.length - off.toNat),
    (b.drop off.toNat).take (min out.length (b.length - off.toNat)) ++
      out.drop (min out.length (b.length - off.toNat)), ?_, rfl, ?_, ?_, ?_, ?_⟩
  · simp [readAtBytes.ReadAt, sliceFrom, h0, h1, copyBytes]
  · simp only [List.length_append, List.length_take, List.length_drop]
    omega
  · rw [List.take_append_of_le_length]
    · rw [List.take_take, min_self]
    · simp only [List.length_take, List.length_drop]
      omega
  · rw [List.drop_append_of_le_length]
    · rw [List.drop_take, Nat.sub_self, List.take_zero, List.nil_append]
    · simp only [List.length_take, List.length_drop]
      omega
  · intro h
    have : off.toNat = b.length := by omega
    simp [this]

/-- The witness of C7: a read of four bytes at offset 1 of a three-byte
buffer. -/
theorem readAt_copies_available_witness :
    ∃ n out1, readAtBytes.ReadAt [10, 20, 30] [1, 2, 3, 4] 1 = some (n, none, out1) ∧
      n = min [1, 2, 3, 4].length ([10, 20, 30].length - (1 : Int).toNat) ∧
      out1.length = [1, 2, 3, 4].length ∧
      out1.take n = (([10, 20, 30] : List Byte).drop (1 : Int).toNat).take n ∧
      out1.drop n = ([1, 2, 3, 4] : List Byte).drop n ∧
      ((1 : Int) = (([10, 20, 30] : List Byte).length : Int) → n = 0) :=
  readAt_copies_available [10, 20, 30] [1, 2, 3, 4] 1 (by decide) (by decide)

/-- C6, as the code has it: for `off ≥ len(b)` the read returns `n = 0`, a nil
error and leaves `out` unchanged when `off = len(b)`, and panics (no result)
when `off > len(b)`, because the slice expression `b[off:]` is out of range. -/
theorem readAt_at_or_beyond_end (b out : List Byte) (off : Int)
    (h : (b.length : Int) ≤ off) :
    (off = (b.length : Int) → readAtBytes.ReadAt b out off = some (0, none, out)) ∧
    ((b.length : Int) < off → readAtBytes.ReadAt b out off = none) := by
  constructor
  · intro he
    subst he
    simp [readAtBytes.ReadAt, sliceFrom, copyBytes]
  · intro hlt
    have : ¬ (0 ≤ off ∧ off ≤ (b.length : Int)) := by omega
    simp [readAtBytes.ReadAt, sliceFrom, this]

/-- The witness of the amended C6: a read at offset 2 of a two-byte buffer. -/
theorem readAt_at_or_beyond_end_witness :
    readAtBytes.ReadAt [7, 8] [0] 2 = some (0, none, [0]) :=
  (readAt_at_or_beyond_end [7, 8] [0] 2 (by decide)).1 (by decide)

/-- The counterexample to C6 as stated: a read at offset 3 of a two-byte
buffer does not return `n = 0` and a nil error, it panics. -/
theorem readAt_beyond_end_panics :
    ((([7, 8] : List Byte).length : Int) ≤ 3) ∧ readAtBytes.ReadAt [7, 8] [0] 3 = none := by
  decide

end Charm

namespace Charm

variable {M C : Type}

/-! ## What the two kinds of source serve -/

/-- The first `n` bytes of a buffer of `n` bytes after `copy` from `src` are
the first `n` bytes of `src`. -/
lemma copyBytes_replicate (n : Nat) (src : List Byte) :
    (copyBytes (List.replicate n 0) src).2.take (copyBytes (List.replicate n 0) src).1 =
      src.take n := by
  simp only [copyBytes, List.length_replicate]
  rw [List.take_append_of_le_length (by simp)]
  rw [List.take_take, min_self]
  by_cases h : n ≤ src.length
  · rw [min_eq_left h]
  · have h1 : src.length ≤ n := by omega
    rw [min_eq_right h1, List.take_of_length_le (le_refl _), List.take_of_length_le h1]

/-- A byte slice serves its bytes through `readAtBytes.ReadAt`, whatever the
file system. -/
lemma served_bytes (fs : FS) (b : List Byte) (size : Int) :
    served fs (ReaderAt.bytes b) size = Except.ok (b.take size.toNat) := by
  have h0 : sliceFrom b 0 = some b := by simp [sliceFrom]
  simp only [served, ReaderAt.ReadAt, readAtBytes.ReadAt, h0]
  rw [copyBytes_replicate]

/-- An open regular file serves its current content through
`(*os.File).ReadAt`. -/
lemma served_file (fs : FS) (f : File) (d : List Byte) (size : Int)
    (h : stat fs f.name = some (Node.file d)) :
    served fs (ReaderAt.file f) size = Except.ok (d.take size.toNat) := by
  have hr : File.ReadAt fs f (List.replicate size.toNat 0) 0 =
      ((copyBytes (List.replicate size.toNat 0) d).1,
        if (copyBytes (List.replicate size.toNat 0) d).1 < (List.replicate size.toNat 0).length
        then some (Error.lib LibError.eof) else none,
        (copyBytes (List.replicate size.toNat 0) d).2) := by
    unfold File.ReadAt
    rw [h]
    simp
  unfold served
  rw [show ReaderAt.ReadAt fs (ReaderAt.file f) (List.replicate size.toNat 0) 0 =
    some (File.ReadAt fs f (List.replicate size.toNat 0) 0) from rfl, hr]
  by_cases hlt : (copyBytes (List.replicate size.toNat 0) d).1 <
      (List.replicate size.toNat 0).length
  · rw [if_pos hlt]
    dsimp only
    rw [if_pos rfl, copyBytes_replicate]
  · rw [if_neg hlt]
    dsimp only
    rw [copyBytes_replicate]

/-- A file that is not a regular file cannot be read. -/
lemma served_not_file (fs : FS) (f : File) (size : Int)
    (h : ∀ d, stat fs f.name ≠ some (Node.file d)) :
    served fs (ReaderAt.file f) size = Except.error (pathError "read" f.name Errno.EISDIR) := by
  have hr : File.ReadAt fs f (List.replicate size.toNat 0) 0 =
      (0, some (pathError "read" f.name Errno.EISDIR), List.replicate size.toNat 0) := by
    unfold File.ReadAt
    split
    · rename_i d hd
      exact absurd hd (h d)
    · rfl
  unfold served
  rw [show ReaderAt.ReadAt fs (ReaderAt.file f) (List.replicate size.toNat 0) 0 =
    some (File.ReadAt fs f (List.replicate size.toNat 0) 0) from rfl, hr]
  dsimp only
  rw [if_neg (by simp [pathError])]

/-- The read of the zip library never panics, and its errors are library
errors. -/
lemma served_error (fs : FS) (r : ReaderAt) (size : Int) (e : Error)
    (h : served fs r size = Except.error e) :
    ∃ f, r = ReaderAt.file f ∧ e = pathError "read" f.name Errno.EISDIR := by
  cases r with
  | bytes b =>
    rw [served_bytes] at h
    cases h
  | file f =>
    by_cases hf : ∃ d, stat fs f.name = some (Node.file d)
    · obtain ⟨d, hd⟩ := hf
      rw [served_file fs f d size hd] at h
      cases h
    · push_neg at hf
      rw [served_not_file fs f size hf] at h
      simp only [Except.error.injEq] at h
      exact ⟨f, rfl, h.symm⟩

/-- What a source serves depends on the file system only through the node
stored for the source. -/
lemma stat_congr (A B : FS) (p : GoString) (h : A (key p) = B (key p)) : stat A p = stat B p := by
  unfold stat lookup
  rw [h]

lemma served_congr (A B : FS) (r : ReaderAt) (size : Int)
    (h : ∀ k, srcKey r = some k → A k = B k) : served A r size = served B r size := by
  cases r with
  | bytes b => rw [served_bytes, served_bytes]
  | file f =>
    have hs : stat A f.name = stat B f.name := stat_congr A B f.name (h _ rfl)
    simp only [served, ReaderAt.ReadAt, File.ReadAt, hs]

end Charm

namespace Charm

/-! ## The path functions: the bounds on recursion are never reached -/

lemma length_dropWhile_le (f : Char → Bool) (l : GoString) : (l.dropWhile f).length ≤ l.length :=
  (List.dropWhile_sublist f).length_le

/-- An iteration of the loop of `filepath.Clean` consumes the character it
looks at. -/
lemma cleanStep_length (rooted : Bool) (c : Char) (t out : GoString) (dotdot : Nat) :
    (cleanStep rooted c t out dotdot).1.length ≤ t.length := by
  unfold cleanStep
  split
  · exact le_refl _
  · split
    · exact le_refl _
    · split
      · split
        · simp
        · split <;> simp
      · rename_i hc _ _
        dsimp only
        rw [List.dropWhile_cons_of_pos (by simpa using hc)]
        exact length_dropWhile_le _ _

lemma cleanLoop_nil (rooted : Bool) (n : Nat) (out : GoString) (dotdot : Nat) :
    cleanLoop rooted n [] out dotdot = out := by
  cases n <;> rfl

/-- The result of the loop of `filepath.Clean` does not depend on the bound
once the bound is at least the number of characters left: the loop never
runs out. -/
lemma cleanLoop_enough (rooted : Bool) (n m : Nat) (rest out : GoString) (dotdot : Nat)
    (hn : rest.length ≤ n) (hm : rest.length ≤ m) :
    cleanLoop rooted n rest out dotdot = cleanLoop rooted m rest out dotdot := by
  induction n generalizing m rest out dotdot with
  | zero =>
    have : rest = [] := List.length_eq_zero.1 (Nat.le_zero.1 hn)
    subst this
    rw [cleanLoop_nil, cleanLoop_nil]
  | succ n ih =>
    cases rest with
    | nil => rw [cleanLoop_nil, cleanLoop_nil]
    | cons c t =>
      cases m with
      | zero => simp at hm
      | succ m =>
        have hlen := cleanStep_length rooted c t out dotdot
        simp only [List.length_cons] at hn hm
        rw [cleanLoop, cleanLoop]
        exact ih m _ _ _ (by omega) (by omega)

/-- The model of `filepath.Clean` on rows of the test table of
`path/filepath`. -/
lemma Clean_examples :
    Clean "".toList = ".".toList ∧
    Clean "abc//def//ghi".toList = "abc/def/ghi".toList ∧
    Clean "abc/./../def".toList = "def".toList ∧
    Clean "abc/def/ghi/../jkl".toList = "abc/def/jkl".toList ∧
    Clean "abc/def/../../..".toList = "..".toList ∧
    Clean "/abc/def/../../..".toList = "/".toList ∧
    Clean "abc/../../././../def".toList = "../../def".toList ∧
    Clean "/../abc".toList = "/abc".toList ∧
    Clean "abc/".toList = "abc".toList := by
  decide

/-- The model of `filepath.Join` and `filepath.Split` on simple rows. -/
lemma Join_Split_examples :
    Join "a".toList "b".toList = "a/b".toList ∧
    Join "a".toList "".toList = "a".toList ∧
    Join "".toList "b".toList = "b".toList ∧
    Join "/".toList "a".toList = "/a".toList ∧
    Join "a/".toList "b".toList = "a/b".toList ∧
    Split "a/b".toList = ("a/".toList, "b".toList) ∧
    Split "a/b/".toList = ("a/b/".toList, "".toList) ∧
    Split "a".toList = ("".toList, "a".toList) ∧
    Split "/".toList = ("/".toList, "".toList) := by
  decide

/-- The parent that `os.MkdirAll` creates first is shorter than the path. -/
lemma mkdirParent_length (p q : GoString) (h : mkdirParent p = some q) : q.length < p.length := by
  unfold mkdirParent at h
  dsimp only at h
  split at h
  · rename_i hlt
    simp only [Option.some.injEq] at h
    subst h
    have h1 : (Split (trimSlash p)).1.length ≤ (trimSlash p).length := by
      unfold Split
      simp only [List.length_reverse]
      exact (length_dropWhile_le _ _).trans (by simp)
    have h2 : (trimSlash p).length ≤ p.length := by
      unfold trimSlash
      simp only [List.length_reverse]
      exact (length_dropWhile_le _ _).trans (by simp)
    rw [List.length_dropLast]
    omega
  · cases h

/-- The result of `os.MkdirAll` does not depend on the bound once the bound
is at least the length of the path: the recursion never runs out. -/
lemma mkdirAllFuel_enough (n m : Nat) (fs : FS) (p : GoString) (hn : p.length ≤ n)
    (hm : p.length ≤ m) : mkdirAllFuel n fs p = mkdirAllFuel m fs p := by
  induction n generalizing m fs p with
  | zero =>
    have hp : mkdirParent p = none := by
      cases hq : mkdirParent p with
      | none => rfl
      | some q =>
        have := mkdirParent_length p q hq
        omega
    cases m with
    | zero => rfl
    | succ m => rw [mkdirAllFuel, mkdirAllFuel, hp]
  | succ n ih =>
    cases m with
    | zero =>
      have hp : mkdirParent p = none := by
        cases hq : mkdirParent p with
        | none => rfl
        | some q =>
          have := mkdirParent_length p q hq
          omega
      rw [mkdirAllFuel, mkdirAllFuel, hp]
    | succ m =>
      rw [mkdirAllFuel, mkdirAllFuel]
      cases hq : mkdirParent p with
      | none => rfl
      | some q =>
        have hlt := mkdirParent_length p q hq
        dsimp only
        rw [ih m fs q (by omega) (by omega)]

end Charm

namespace Charm

variable {M C : Type}

/-! ## Reading a bundle -/

/-- The error of `(*zip.File).Open` is a library error. -/
lemma ZipFile.Open_ne_formatted (env : Env M C) (fs : FS) (zipr : ZipReader) (fh : ZipFile)
    (msg : GoString) : fh.Open env fs zipr ≠ Except.error (Error.formatted msg) := by
  unfold ZipFile.Open
  cases hs : served fs zipr.r zipr.size with
  | error e =>
    obtain ⟨f, -, he⟩ := served_error fs zipr.r zipr.size e hs
    rw [he]
    simp [pathError]
  | ok bs =>
    dsimp only
    cases env.Open fh bs <;> simp

/-- The loop of `zipOpen` fails with the formatted error exactly when no
entry has the name. -/
lemma zipOpenLoop_not_found_iff (env : Env M C) (fs : FS) (zipr : ZipReader) (p : GoString)
    (l : List ZipFile) :
    zipOpenLoop env fs zipr p l = Except.error (errorf "bundle file not found: ".toList p) ↔
      ∀ fh ∈ l, fh.Name ≠ p := by
  induction l with
  | nil => simp [zipOpenLoop]
  | cons fh rest ih =>
    by_cases hn : fh.Name = p
    · simp only [zipOpenLoop, hn, if_true, List.mem_cons, forall_eq_or_imp, ne_eq,
        not_true_eq_false, false_and, iff_false]
      exact ZipFile.Open_ne_formatted env fs zipr fh _
    · simp only [zipOpenLoop, hn, if_false, List.mem_cons, forall_eq_or_imp, ne_eq,
        not_false_eq_true, true_and]
      exact ih

/-- The loop of `zipOpen` opens the first entry that has the name. -/
lemma zipOpenLoop_first (env : Env M C) (fs : FS) (zipr : ZipReader) (p : GoString)
    (pre : List ZipFile) (fh : ZipFile) (post : List ZipFile)
    (hpre : ∀ x ∈ pre, x.Name ≠ p) (hfh : fh.Name = p) :
    zipOpenLoop env fs zipr p (pre ++ fh :: post) = fh.Open env fs zipr := by
  induction pre with
  | nil => simp [zipOpenLoop, hfh]
  | cons x rest ih =>
    have hx : x.Name ≠ p := hpre x (List.mem_cons_self _ _)
    simp only [List.cons_append, zipOpenLoop, hx, if_false]
    exact ih (fun y hy => hpre y (List.mem_cons_of_mem _ hy))

/-- When the loop of `zipOpen` returns a stream, an entry has the name. -/
lemma zipOpenLoop_ok_found (env : Env M C) (fs : FS) (zipr : ZipReader) (p : GoString)
    (l : List ZipFile) (rd : EntryReader)
    (h : zipOpenLoop env fs zipr p l = Except.ok rd) : ∃ fh ∈ l, fh.Name = p := by
  by_contra hne
  push_neg at hne
  rw [(zipOpenLoop_not_found_iff env fs zipr p l).2 hne] at h
  cases h

/-- C5: `zipOpen` returns the error "bundle file not found: " followed by the
name exactly when no entry has exactly that name; otherwise it opens the
first entry in archive order whose name equals it.  An archive with a valid
`metadata.yaml` and no entry named `config.yaml` makes `readBundle` return a
nil Bundle and the error naming `config.yaml`. -/
theorem zipOpen_exact_match (env : Env M C) (fs : FS) (zipr : ZipReader) (p : GoString) :
    (zipOpen env fs zipr p = Except.error (errorf "bundle file not found: ".toList p) ↔
      ∀ fh ∈ zipr.File, fh.Name ≠ p) ∧
    (∀ pre fh post, zipr.File = pre ++ fh :: post → (∀ x ∈ pre, x.Name ≠ p) → fh.Name = p →
      zipOpen env fs zipr p = fh.Open env fs zipr) ∧
    (∀ (r : ReaderAt) (size : Int) (rd : EntryReader),
      zipNewReader env fs r size = Except.ok zipr →
      zipOpen env fs zipr "metadata.yaml".toList = Except.ok rd →
      (env.ReadMeta (rd.readAll env fs zipr)).2 = none →
      (∀ fh ∈ zipr.File, fh.Name ≠ "config.yaml".toList) →
      readBundle env fs r size =
        (none, some (errorf "bundle file not found: ".toList "config.yaml".toList))) := by
  refine ⟨zipOpenLoop_not_found_iff env fs zipr p zipr.File, ?_, ?_⟩
  · intro pre fh post hsplit hpre hfh
    unfold zipOpen
    rw [hsplit]
    exact zipOpenLoop_first env fs zipr p pre fh post hpre hfh
  · intro r size rd hzip hmeta hread hnone
    have hcfg : zipOpen env fs zipr "config.yaml".toList =
        Except.error (errorf "bundle file not found: ".toList "config.yaml".toList) :=
      (zipOpenLoop_not_found_iff env fs zipr _ zipr.File).2 hnone
    simp only [readBundle, hzip, hmeta, hread, hcfg]

/-- The witness of C5: the archive with `metadata.yaml`, `Config.yaml` and
`config.yaml.bak` has no `config.yaml`. -/
theorem zipOpen_exact_match_witness :
    readBundle demoEnv emptyFS (ReaderAt.bytes [80, 75, 5]) 3 =
      (none, some (errorf "bundle file not found: ".toList "config.yaml".toList)) :=
  (zipOpen_exact_match demoEnv emptyFS
    { r := ReaderAt.bytes [80, 75, 5], size := 3, File := noConfigEntries }
    "config.yaml".toList).2.2 (ReaderAt.bytes [80, 75, 5]) 3 { info := [0, 1] } rfl rfl rfl
    (by decide)

end Charm

namespace Charm

variable {M C : Type}

/-- When all its steps succeed, `readBundle` returns the Bundle built from
the values of the parsers, and a nil error. -/
lemma readBundle_of_fullyRead (env : Env M C) (fs : FS) (r : ReaderAt) (size : Int)
    (zipr : ZipReader) (rd1 rd2 : EntryReader) (h : FullyRead env fs r size zipr rd1 rd2) :
    readBundle env fs r size =
      (some { Path := [], meta := (env.ReadMeta (rd1.readAll env fs zipr)).1,
              config := (env.ReadConfig (rd2.readAll env fs zipr)).1, r := r, size := size },
        none) := by
  obtain ⟨h1, h2, h3, h4, h5⟩ := h
  simp only [readBundle, h1, h2, h3, h4, h5]

/-- The results of `readBundle` are exclusive, and a Bundle is returned only
when all steps succeed. -/
lemma readBundle_cases (env : Env M C) (fs : FS) (r : ReaderAt) (size : Int) :
    (∃ e, readBundle env fs r size = (none, some e) ∧
      ¬ ∃ zipr rd1 rd2, FullyRead env fs r size zipr rd1 rd2) ∨
    (∃ zipr rd1 rd2, FullyRead env fs r size zipr rd1 rd2) := by
  cases hz : zipNewReader env fs r size with
  | error e =>
    left
    refine ⟨e, by simp only [readBundle, hz], ?_⟩
    rintro ⟨zipr, rd1, rd2, h1, -⟩
    rw [hz] at h1
    cases h1
  | ok zipr =>
    cases hm : zipOpen env fs zipr "metadata.yaml".toList with
    | error e =>
      left
      refine ⟨e, by simp only [readBundle, hz, hm], ?_⟩
      rintro ⟨zipr1, rd1, rd2, h1, h2, -⟩
      rw [hz] at h1
      cases h1
      rw [hm] at h2
      cases h2
    | ok rd1 =>
      cases hpm : (env.ReadMeta (rd1.readAll env fs zipr)).2 with
      | some e =>
        left
        refine ⟨e, by simp only [readBundle, hz, hm, hpm], ?_⟩
        rintro ⟨zipr1, rd1a, rd2, h1, h2, h3, -⟩
        rw [hz] at h1
        cases h1
        rw [hm] at h2
        cases h2
        rw [hpm] at h3
        cases h3
      | none =>
        cases hc : zipOpen env fs zipr "config.yaml".toList with
        | error e =>
          left
          refine ⟨e, by simp only [readBundle, hz, hm, hpm, hc], ?_⟩
          rintro ⟨zipr1, rd1a, rd2, h1, h2, h3, h4, -⟩
          rw [hz] at h1
          cases h1
          rw [hc] at h4
          cases h4
        | ok rd2 =>
          cases hpc : (env.ReadConfig (rd2.readAll env fs zipr)).2 with
          | some e =>
            left
            refine ⟨e, by simp only [readBundle, hz, hm, hpm, hc, hpc], ?_⟩
            rintro ⟨zipr1, rd1a, rd2a, h1, h2, h3, h4, h5⟩
            rw [hz] at h1
            cases h1
            rw [hc] at h4
            cases h4
            rw [hpc] at h5
            cases h5
          | none =>
            right
            exact ⟨zipr, rd1, rd2, hz, hm, hpm, hc, hpc⟩

/-- What `readBundle` guarantees: a Bundle exactly when every step
succeeds, then with the values of the parsers and a nil error, and
otherwise no Bundle and an error. -/
lemma readBundle_spec (env : Env M C) (fs : FS) (r : ReaderAt) (size : Int) :
    ((readBundle env fs r size).1 ≠ none ↔
      ∃ zipr rd1 rd2, FullyRead env fs r size zipr rd1 rd2) ∧
    (∀ zipr rd1 rd2, FullyRead env fs r size zipr rd1 rd2 →
      (∃ fh ∈ zipr.File, fh.Name = "metadata.yaml".toList) ∧
      (∃ fh ∈ zipr.File, fh.Name = "config.yaml".toList) ∧
      ∃ b, readBundle env fs r size = (some b, none) ∧
        b.Meta = (env.ReadMeta (rd1.readAll env fs zipr)).1 ∧
        b.Config = (env.ReadConfig (rd2.readAll env fs zipr)).1 ∧ b.Path = []) ∧
    ((readBundle env fs r size).1 = none ↔ (readBundle env fs r size).2 ≠ none) := by
  refine ⟨?_, ?_, ?_⟩
  · rcases readBundle_cases env fs r size with ⟨e, he, hno⟩ | ⟨zipr, rd1, rd2, h⟩
    · simp [he, hno]
    · constructor
      · intro _
        exact ⟨zipr, rd1, rd2, h⟩
      · intro _
        simp [readBundle_of_fullyRead env fs r size zipr rd1 rd2 h]
  · intro zipr rd1 rd2 h
    refine ⟨zipOpenLoop_ok_found env fs zipr _ _ rd1 h.2.1,
      zipOpenLoop_ok_found env fs zipr _ _ rd2 h.2.2.2.1, _,
      readBundle_of_fullyRead env fs r size zipr rd1 rd2 h, rfl, rfl, rfl⟩
  · rcases readBundle_cases env fs r size with ⟨e, he, -⟩ | ⟨zipr, rd1, rd2, h⟩
    · simp [he]
    · simp [readBundle_of_fullyRead env fs r size zipr rd1 rd2 h]

/-- The two results of `readBundle` are never both nil. -/
lemma readBundle_exclusive (env : Env M C) (fs : FS) (r : ReaderAt) (size : Int) :
    ((readBundle env fs r size).1 = none ↔ (readBundle env fs r size).2 ≠ none) :=
  (readBundle_spec env fs r size).2.2

/-- `ReadBundle` is `readBundle` on the opened file, with the path
recorded. -/
lemma ReadBundle_of_open (env : Env M C) (fs : FS) (path : GoString) (f : File) (fi : FileInfo)
    (hopen : osOpen fs path = Except.ok f) (hstat : f.Stat fs = Except.ok fi) :
    ReadBundle env fs path =
      ((readBundle env fs (ReaderAt.file f) fi.Size).1.map (fun b => { b with Path := path }),
        (readBundle env fs (ReaderAt.file f) fi.Size).2) := by
  unfold ReadBundle
  rw [hopen]
  dsimp only
  rw [hstat]
  dsimp only
  rcases readBundle_cases env fs (ReaderAt.file f) fi.Size with ⟨e, he, -⟩ | ⟨zipr, rd1, rd2, h⟩
  · rw [he]
    rfl
  · rw [readBundle_of_fullyRead env fs _ _ zipr rd1 rd2 h]
    rfl

/-- `ReadBundle` returns no Bundle when the file does not open or cannot be
measured. -/
lemma ReadBundle_not_open (env : Env M C) (fs : FS) (path : GoString)
    (h : ¬ ∃ f fi, osOpen fs path = Except.ok f ∧ f.Stat fs = Except.ok fi) :
    ∃ e, ReadBundle env fs path = (none, some e) := by
  unfold ReadBundle
  cases hopen : osOpen fs path with
  | error e => exact ⟨e, rfl⟩
  | ok f =>
    dsimp only
    cases hstat : f.Stat fs with
    | error e => exact ⟨e, rfl⟩
    | ok fi => exact absurd ⟨f, fi, hopen, hstat⟩ h

/-- C4: `readBundle` returns a non-nil Bundle exactly when the archive parsed,
`metadata.yaml` and `config.yaml` were found and opened, and `ReadMeta` and
`ReadConfig` returned no error; then the error is nil and `Meta()` and
`Config()` are the values the parsers produced; in every other case the
Bundle is nil and the error is not.  The same holds for `ReadBundleBytes` on
the byte slice, and for `ReadBundle` on the file it opens, whose Bundle
carries the path. -/
theorem readBundle_bundle_iff_fully_read (env : Env M C) (fs : FS) (r : ReaderAt) (size : Int) :
    (((readBundle env fs r size).1 ≠ none ↔
        ∃ zipr rd1 rd2, FullyRead env fs r size zipr rd1 rd2) ∧
      (∀ zipr rd1 rd2, FullyRead env fs r size zipr rd1 rd2 →
        (∃ fh ∈ zipr.File, fh.Name = "metadata.yaml".toList) ∧
        (∃ fh ∈ zipr.File, fh.Name = "config.yaml".toList) ∧
        ∃ b, readBundle env fs r size = (some b, none) ∧
          b.Meta = (env.ReadMeta (rd1.readAll env fs zipr)).1 ∧
          b.Config = (env.ReadConfig (rd2.readAll env fs zipr)).1 ∧ b.Path = []) ∧
      ((readBundle env fs r size).1 = none ↔ (readBundle env fs r size).2 ≠ none)) ∧
    (∀ data : List Byte,
      ((ReadBundleBytes env data).1 ≠ none ↔
        ∃ zipr rd1 rd2,
          FullyRead env emptyFS (ReaderAt.bytes data) (data.length : Int) zipr rd1 rd2) ∧
      (∀ zipr rd1 rd2,
        FullyRead env emptyFS (ReaderAt.bytes data) (data.length : Int) zipr rd1 rd2 →
        ∃ b, ReadBundleBytes env data = (some b, none) ∧
          b.Meta = (env.ReadMeta (rd1.readAll env emptyFS zipr)).1 ∧
          b.Config = (env.ReadConfig (rd2.readAll env emptyFS zipr)).1 ∧ b.Path = []) ∧
      ((ReadBundleBytes env data).1 = none ↔ (ReadBundleBytes env data).2 ≠ none)) ∧
    (∀ path : GoString,
      ((ReadBundle env fs path).1 ≠ none ↔
        ∃ f fi zipr rd1 rd2, osOpen fs path = Except.ok f ∧ f.Stat fs = Except.ok fi ∧
          FullyRead env fs (ReaderAt.file f) fi.Size zipr rd1 rd2) ∧
      (∀ f fi zipr rd1 rd2, osOpen fs path = Except.ok f → f.Stat fs = Except.ok fi →
        FullyRead env fs (ReaderAt.file f) fi.Size zipr rd1 rd2 →
        ∃ b, ReadBundle env fs path = (some b, none) ∧
          b.Meta = (env.ReadMeta (rd1.readAll env fs zipr)).1 ∧
          b.Config = (env.ReadConfig (rd2.readAll env fs zipr)).1 ∧ b.Path = path) ∧
      ((ReadBundle env fs path).1 = none ↔ (ReadBundle env fs path).2 ≠ none)) := by
  refine ⟨readBundle_spec env fs r size, ?_, ?_⟩
  · intro data
    obtain ⟨h1, h2, h3⟩ := readBundle_spec env emptyFS (ReaderAt.bytes data) (data.length : Int)
    refine ⟨h1, ?_, h3⟩
    intro zipr rd1 rd2 h
    obtain ⟨-, -, b, hb⟩ := h2 zipr rd1 rd2 h
    exact ⟨b, hb⟩
  · intro path
    by_cases hop : ∃ f fi, osOpen fs path = Except.ok f ∧ f.Stat fs = Except.ok fi
    · obtain ⟨f, fi, hopen, hstat⟩ := hop
      obtain ⟨h1, h2, h3⟩ := readBundle_spec env fs (ReaderAt.file f) fi.Size
      rw [ReadBundle_of_open env fs path f fi hopen hstat]
      refine ⟨?_, ?_, ?_⟩
      · constructor
        · intro hne
          have : (readBundle env fs (ReaderAt.file f) fi.Size).1 ≠ none := by
            intro hn
            apply hne
            simp [hn]
          obtain ⟨zipr, rd1, rd2, h⟩ := h1.1 this
          exact ⟨f, fi, zipr, rd1, rd2, hopen, hstat, h⟩
        · rintro ⟨f1, fi1, zipr, rd1, rd2, hopen1, hstat1, h⟩
          rw [hopen] at hopen1
          cases hopen1
          rw [hstat] at hstat1
          cases hstat1
          rw [readBundle_of_fullyRead env fs _ _ zipr rd1 rd2 h]
          simp
      · intro f1 fi1 zipr rd1 rd2 hopen1 hstat1 h
        rw [hopen] at hopen1
        cases hopen1
        rw [hstat] at hstat1
        cases hstat1
        rw [readBundle_of_fullyRead env fs _ _ zipr rd1 rd2 h]
        exact ⟨_, rfl, rfl, rfl, rfl⟩
      · rcases readBundle_cases env fs (ReaderAt.file f) fi.Size with
          ⟨e, he, -⟩ | ⟨zipr, rd1, rd2, h⟩
        · simp [he]
        · simp [readBundle_of_fullyRead env fs _ _ zipr rd1 rd2 h]
    · obtain ⟨e, he⟩ := ReadBundle_not_open env fs path hop
      rw [he]
      refine ⟨?_, ?_, by simp⟩
      · constructor
        · intro hne
          exact absurd rfl hne
        · rintro ⟨f, fi, zipr, rd1, rd2, hopen, hstat, -⟩
          exact absurd ⟨f, fi, hopen, hstat⟩ hop
      · intro f fi zipr rd1 rd2 hopen hstat _
        exact absurd ⟨f, fi, hopen, hstat⟩ hop

/-- A run of C4: reading the example archive from the file `/b.charm`
returns a Bundle with the two parsed documents, the path and a nil error. -/
theorem readBundle_bundle_iff_fully_read_witness :
    ∃ b, ReadBundle demoEnv (emptyFS.set "/b.charm".toList (Node.file [80, 75, 1]))
        "/b.charm".toList = (some b, none) ∧
      b.Meta = some [1] ∧ b.Config = some [2] ∧ b.Path = "/b.charm".toList :=
  ((readBundle_bundle_iff_fully_read demoEnv
      (emptyFS.set "/b.charm".toList (Node.file [80, 75, 1])) (ReaderAt.bytes []) 0).2.2
    "/b.charm".toList).2.1 { name := "/b.charm".toList } { Size := 3 }
    { r := ReaderAt.file { name := "/b.charm".toList }, size := 3, File := demoEntries }
    { info := [0, 1] } { info := [0, 2] } rfl rfl ⟨rfl, rfl, rfl, rfl, rfl⟩

/-! ## Opening from a path and from bytes -/

/-- Opening an entry depends on the source only through the bytes served. -/
lemma ZipFile.Open_congr (env : Env M C) (fs1 fs2 : FS) (z1 z2 : ZipReader) (fh : ZipFile)
    (h : served fs1 z1.r z1.size = served fs2 z2.r z2.size) :
    fh.Open env fs1 z1 = fh.Open env fs2 z2 := by
  unfold ZipFile.Open
  rw [h]

/-- Reading a stream depends on the source only through the bytes served. -/
lemma EntryReader.readAll_congr (env : Env M C) (fs1 fs2 : FS) (z1 z2 : ZipReader)
    (rd : EntryReader) (h : served fs1 z1.r z1.size = served fs2 z2.r z2.size) :
    rd.readAll env fs1 z1 = rd.readAll env fs2 z2 := by
  unfold EntryReader.readAll
  rw [h]

lemma zipOpenLoop_congr (env : Env M C) (fs1 fs2 : FS) (z1 z2 : ZipReader) (p : GoString)
    (l : List ZipFile) (h : served fs1 z1.r z1.size = served fs2 z2.r z2.size) :
    zipOpenLoop env fs1 z1 p l = zipOpenLoop env fs2 z2 p l := by
  induction l with
  | nil => rfl
  | cons fh rest ih =>
    unfold zipOpenLoop
    rw [ih, ZipFile.Open_congr env fs1 fs2 z1 z2 fh h]

/-- The error of `readBundle`, and the documents of the Bundle it returns,
depend on the source only through the bytes it serves through `ReadAt`. -/
lemma readBundle_congr (env : Env M C) (fs1 fs2 : FS) (r1 r2 : ReaderAt) (size : Int)
    (h : served fs1 r1 size = served fs2 r2 size) :
    (readBundle env fs1 r1 size).2 = (readBundle env fs2 r2 size).2 ∧
    (readBundle env fs1 r1 size).1.map (fun b => (b.meta, b.config)) =
      (readBundle env fs2 r2 size).1.map (fun b => (b.meta, b.config)) := by
  cases hs : served fs2 r2 size with
  | error e =>
    have h1 : zipNewReader env fs1 r1 size = Except.error e := by
      simp only [zipNewReader, h, hs]
    have h2 : zipNewReader env fs2 r2 size = Except.error e := by
      simp only [zipNewReader, hs]
    simp [readBundle, h1, h2]
  | ok bs =>
    cases hn : env.NewReader bs size with
    | error e =>
      have h1 : zipNewReader env fs1 r1 size = Except.error (Error.lib e) := by
        simp only [zipNewReader, h, hs, hn]
      have h2 : zipNewReader env fs2 r2 size = Except.error (Error.lib e) := by
        simp only [zipNewReader, hs, hn]
      simp [readBundle, h1, h2]
    | ok files =>
      have h1 : zipNewReader env fs1 r1 size =
          Except.ok { r := r1, size := size, File := files } := by
        simp only [zipNewReader, h, hs, hn]
      have h2 : zipNewReader env fs2 r2 size =
          Except.ok { r := r2, size := size, File := files } := by
        simp only [zipNewReader, hs, hn]
      have hz : served fs1 (ZipReader.mk r1 size files).r (ZipReader.mk r1 size files).size =
          served fs2 (ZipReader.mk r2 size files).r (ZipReader.mk r2 size files).size := h
      have hO : ∀ p, zipOpen env fs1 { r := r1, size := size, File := files } p =
          zipOpen env fs2 { r := r2, size := size, File := files } p :=
        fun p => zipOpenLoop_congr env fs1 fs2 _ _ p files hz
      have hR : ∀ rd : EntryReader, rd.readAll env fs1 { r := r1, size := size, File := files } =
          rd.readAll env fs2 { r := r2, size := size, File := files } :=
        fun rd => EntryReader.readAll_congr env fs1 fs2 _ _ rd hz
      unfold readBundle
      rw [h1, h2]
      dsimp only
      rw [hO]
      cases zipOpen env fs2 { r := r2, size := size, File := files } "metadata.yaml".toList with
      | error e => exact ⟨rfl, rfl⟩
      | ok rd1 =>
        dsimp only
        rw [hR rd1]
        cases (env.ReadMeta (rd1.readAll env fs2 { r := r2, size := size, File := files })).2 with
        | some e => exact ⟨rfl, rfl⟩
        | none =>
          dsimp only
          rw [hO]
          cases zipOpen env fs2 { r := r2, size := size, File := files }
            "config.yaml".toList with
          | error e => exact ⟨rfl, rfl⟩
          | ok rd2 =>
            dsimp only
            rw [hR rd2]
            cases (env.ReadConfig
              (rd2.readAll env fs2 { r := r2, size := size, File := files })).2 with
            | some e => exact ⟨rfl, rfl⟩
            | none => exact ⟨rfl, rfl⟩

/-- A regular file and a byte slice with the same content serve the same
bytes: `(*os.File).ReadAt` and `readAtBytes.ReadAt` agree on the range that
the zip library reads. -/
lemma served_file_eq_bytes (fs fs1 : FS) (f : File) (data : List Byte)
    (h : stat fs f.name = some (Node.file data)) :
    served fs (ReaderAt.file f) (data.length : Int) =
      served fs1 (ReaderAt.bytes data) (data.length : Int) := by
  rw [served_file fs f data _ h, served_bytes]

/-- C8: when the file at `path` exists with content `data`, so that it
opens, `ReadBundle(path)` succeeds exactly when `ReadBundleBytes(data)`
succeeds (they return the same error), and then the two Bundles have equal
`Meta()` and equal `Config()`; the first has `Path = path`, the second
`Path = ""`. -/
theorem ReadBundle_agrees_with_ReadBundleBytes (env : Env M C) (fs : FS) (path : GoString)
    (data : List Byte) (hfile : stat fs path = some (Node.file data)) :
    ((ReadBundle env fs path).1 ≠ none ↔ (ReadBundleBytes env data).1 ≠ none) ∧
    (ReadBundle env fs path).2 = (ReadBundleBytes env data).2 ∧
    (∀ b1 b2, (ReadBundle env fs path).1 = some b1 → (ReadBundleBytes env data).1 = some b2 →
      b1.Meta = b2.Meta ∧ b1.Config = b2.Config ∧ b1.Path = path ∧ b2.Path = []) := by
  have hopen : osOpen fs path = Except.ok { name := path } := by
    simp only [osOpen, hfile]
  have hstat : File.Stat fs { name := path } = Except.ok { Size := (data.length : Int) } := by
    simp only [File.Stat, hfile]
  have hserved := served_file_eq_bytes fs emptyFS { name := path } data hfile
  obtain ⟨herr, hdoc⟩ := readBundle_congr env fs emptyFS (ReaderAt.file { name := path })
    (ReaderAt.bytes data) (data.length : Int) hserved
  rw [ReadBundle_of_open env fs path _ _ hopen hstat]
  unfold ReadBundleBytes
  rcases hx : readBundle env fs (ReaderAt.file { name := path }) (data.length : Int) with ⟨x1, e1⟩
  rcases hy : readBundle env emptyFS (ReaderAt.bytes data) (data.length : Int) with ⟨x2, e2⟩
  rw [hx, hy] at herr hdoc
  dsimp only at herr hdoc ⊢
  have hpath : ∀ b2, x2 = some b2 → b2.Path = [] := by
    intro b2 hb2
    rcases readBundle_cases env emptyFS (ReaderAt.bytes data) (data.length : Int) with
      ⟨e, he, -⟩ | ⟨zipr, rd1, rd2, h⟩
    · rw [hy] at he
      simp only [Prod.mk.injEq] at he
      rw [he.1] at hb2
      cases hb2
    · rw [readBundle_of_fullyRead env _ _ _ zipr rd1 rd2 h] at hy
      simp only [Prod.mk.injEq] at hy
      rw [← hy.1] at hb2
      simp only [Option.some.injEq] at hb2
      rw [← hb2]
  refine ⟨?_, herr, ?_⟩
  · cases x1 <;> cases x2 <;> simp at hdoc ⊢
  · intro b1 b2 hb1 hb2
    cases x1 with
    | none => cases hb1
    | some a1 =>
      simp only [Option.map_some', Option.some.injEq] at hb1
      subst hb2
      simp only [Option.map_some', Option.some.injEq, Prod.mk.injEq] at hdoc
      subst hb1
      exact ⟨hdoc.1, hdoc.2, rfl, hpath b2 rfl⟩

/-- The witness of C8: the example archive stored at `/b.charm`; both ways
of opening it succeed, with the same documents. -/
theorem ReadBundle_agrees_with_ReadBundleBytes_witness :
    (ReadBundle demoEnv (emptyFS.set "/b.charm".toList (Node.file [80, 75, 1]))
        "/b.charm".toList).2 = none ∧
    (ReadBundle demoEnv (emptyFS.set "/b.charm".toList (Node.file [80, 75, 1]))
        "/b.charm".toList).1.map Bundle.Meta = some (some [1]) ∧
    (ReadBundleBytes demoEnv [80, 75, 1]).1.map Bundle.Meta = some (some [1]) ∧
    ((ReadBundle demoEnv (emptyFS.set "/b.charm".toList (Node.file [80, 75, 1]))
        "/b.charm".toList).1 ≠ none ↔ (ReadBundleBytes demoEnv [80, 75, 1]).1 ≠ none) ∧
    (ReadBundle demoEnv (emptyFS.set "/b.charm".toList (Node.file [80, 75, 1]))
        "/b.charm".toList).2 = (ReadBundleBytes demoEnv [80, 75, 1]).2 :=
  ⟨by decide, by decide, by decide,
    (ReadBundle_agrees_with_ReadBundleBytes demoEnv
      (emptyFS.set "/b.charm".toList (Node.file [80, 75, 1])) "/b.charm".toList [80, 75, 1]
      (by decide)).1,
    (ReadBundle_agrees_with_ReadBundleBytes demoEnv
      (emptyFS.set "/b.charm".toList (Node.file [80, 75, 1])) "/b.charm".toList [80, 75, 1]
      (by decide)).2.1⟩

end Charm

namespace Charm

variable {M C : Type}

/-! ## The error returned by `ExpandTo` -/

@[simp] lemma World.release_trace (w : World) (h : Handle) : (w.release h).trace = w.trace := rfl

@[simp] lemma World.acquire_trace (w : World) (h : Handle) : (w.acquire h).trace = w.trace := rfl

@[simp] lemma World.step_trace (w : World) (fs : FS) (s : Step) (n : GoString)
    (e : Option Error) :
    (w.step fs s n e).trace = w.trace ++ [{ step := s, name := n, err := e }] := rfl

@[simp] lemma World.release_fs (w : World) (h : Handle) : (w.release h).fs = w.fs := rfl

@[simp] lemma World.acquire_fs (w : World) (h : Handle) : (w.acquire h).fs = w.fs := rfl

@[simp] lemma World.step_fs (w : World) (fs : FS) (s : Step) (n : GoString) (e : Option Error) :
    (w.step fs s n e).fs = fs := rfl

lemma lastFailure_cons (x : Event) (l : List Event) :
    lastFailure (x :: l) =
      match lastFailure l with
      | some e => some e
      | none => x.err := rfl

/-- The latest failure of two traces in a row. -/
lemma lastFailure_append (a b : List Event) :
    lastFailure (a ++ b) =
      match lastFailure b with
      | some e => some e
      | none => lastFailure a := by
  induction a with
  | nil => cases h : lastFailure b <;> simp [lastFailure, h]
  | cons x rest ih =>
    rw [List.cons_append, lastFailure_cons, ih, lastFailure_cons]
    cases lastFailure b <;> rfl

/-- A trace has no latest failure exactly when no step failed. -/
lemma lastFailure_eq_none_iff (evs : List Event) :
    lastFailure evs = none ↔ ∀ ev ∈ evs, ev.err = none := by
  induction evs with
  | nil => simp [lastFailure]
  | cons x rest ih =>
    rw [lastFailure_cons]
    simp only [List.mem_cons, forall_eq_or_imp]
    cases h : lastFailure rest with
    | none =>
      rw [h] at ih
      have hr : ∀ ev ∈ rest, ev.err = none := ih.1 rfl
      constructor
      · intro hx
        exact ⟨hx, hr⟩
      · intro hx
        exact hx.1
    | some e =>
      rw [h] at ih
      constructor
      · intro hx
        cases hx
      · intro hx
        have := ih.2 hx.2
        cases this

/-- The latest failure is the error of a failed step that no failed step
follows. -/
lemma lastFailure_eq_some_iff (evs : List Event) (e : Error) :
    lastFailure evs = some e ↔
      ∃ pre ev post, evs = pre ++ ev :: post ∧ ev.err = some e ∧ ∀ x ∈ post, x.err = none := by
  induction evs with
  | nil => simp [lastFailure]
  | cons x rest ih =>
    simp only [lastFailure]
    cases h : lastFailure rest with
    | some e1 =>
      rw [h] at ih
      simp only
      constructor
      · intro he
        obtain ⟨pre, ev, post, hsplit, herr, hpost⟩ := ih.1 he
        exact ⟨x :: pre, ev, post, by simp [hsplit], herr, hpost⟩
      · rintro ⟨pre, ev, post, hsplit, herr, hpost⟩
        cases pre with
        | nil =>
          simp only [List.nil_append, List.cons.injEq] at hsplit
          have hnone : lastFailure rest = none := by
            rw [hsplit.2]
            exact (lastFailure_eq_none_iff post).2 hpost
          rw [h] at hnone
          cases hnone
        | cons y pre1 =>
          simp only [List.cons_append, List.cons.injEq] at hsplit
          exact ih.2 ⟨pre1, ev, post, hsplit.2, herr, hpost⟩
    | none =>
      simp only
      have hrest : ∀ y ∈ rest, y.err = none := (lastFailure_eq_none_iff rest).1 h
      constructor
      · intro he
        exact ⟨[], x, rest, rfl, he, hrest⟩
      · rintro ⟨pre, ev, post, hsplit, herr, hpost⟩
        cases pre with
        | nil =>
          simp only [List.nil_append, List.cons.injEq] at hsplit
          rw [hsplit.1]
          exact herr
        | cons y pre1 =>
          simp only [List.cons_append, List.cons.injEq] at hsplit
          have hev : ev.err = none :=
            hrest ev (by rw [hsplit.2]; exact List.mem_append_right _ (List.mem_cons_self _ _))
          rw [herr] at hev
          cases hev

lemma specSteps_cons (env : Env M C) (zipr : ZipReader) (dir : GoString) (h : ZipFile)
    (rest : List ZipFile) (fs : FS) :
    specSteps env zipr dir (h :: rest) fs =
      specEntrySteps env zipr dir fs h ++
        specSteps env zipr dir rest (expandEntryFS env zipr dir fs h).1 := rfl

lemma expandLoopOk_cons (env : Env M C) (zipr : ZipReader) (dir : GoString) (h : ZipFile)
    (rest : List ZipFile) (fs : FS) :
    expandLoopOk env zipr dir (h :: rest) fs =
      ((expandEntryFS env zipr dir fs h).2 = none ∧
        expandLoopOk env zipr dir rest (expandEntryFS env zipr dir fs h).1) :=
  rfl

lemma expandLoopFS_cons (env : Env M C) (zipr : ZipReader) (dir : GoString) (h : ZipFile)
    (rest : List ZipFile) (fs : FS) :
    expandLoopFS env zipr dir (h :: rest) fs =
      expandLoopFS env zipr dir rest (expandEntryFS env zipr dir fs h).1 :=
  rfl

lemma expandLoopFS_append (env : Env M C) (zipr : ZipReader) (dir : GoString)
    (l1 l2 : List ZipFile) (fs : FS) :
    expandLoopFS env zipr dir (l1 ++ l2) fs =
      expandLoopFS env zipr dir l2 (expandLoopFS env zipr dir l1 fs) := by
  induction l1 generalizing fs with
  | nil => rfl
  | cons h rest ih =>
    rw [List.cons_append, expandLoopFS_cons, expandLoopFS_cons, ih]

/-- One pass of the loop body performs the steps that the specification
prescribes for the entry: it appends them to the trace, all under the name
of the entry; the latest failure among them is the failure of
`expandEntryFS`; `lasterr` becomes that failure, or keeps its value when
there is none; the file system becomes that of `expandEntryFS`. -/
lemma expandEntry_spec (env : Env M C) (zipr : ZipReader) (dir : GoString)
    (st : World × Option Error) (header : ZipFile) :
    (expandEntry env zipr dir st header).1.trace =
        st.1.trace ++ specEntrySteps env zipr dir st.1.fs header ∧
      (∀ ev ∈ specEntrySteps env zipr dir st.1.fs header, ev.name = header.Name) ∧
      lastFailure (specEntrySteps env zipr dir st.1.fs header) =
        (expandEntryFS env zipr dir st.1.fs header).2 ∧
      (expandEntry env zipr dir st header).1.fs = (expandEntryFS env zipr dir st.1.fs header).1 ∧
      (expandEntry env zipr dir st header).2 =
        match lastFailure (specEntrySteps env zipr dir st.1.fs header) with
        | some e => some e
        | none => st.2 := by
  unfold expandEntry expandEntryFS specEntrySteps destPath
  dsimp only
  cases header.Open env st.1.fs zipr with
  | error err =>
    exact ⟨rfl, by simp, rfl, rfl, rfl⟩
  | ok zf =>
    dsimp only
    by_cases hs : HasSuffix header.Name ['/'] = true
    · rw [if_pos hs, if_pos hs, if_pos hs]
      simp only [World.acquire_fs, World.step_fs]
      rcases osMkdirAll st.1.fs (Join dir (Clean header.Name)) with ⟨fs2, _ | err⟩
      · exact ⟨by simp, by simp, rfl, rfl, rfl⟩
      · exact ⟨by simp, by simp, rfl, rfl, rfl⟩
    · rw [if_neg hs, if_neg hs, if_neg hs]
      simp only [World.acquire_fs, World.step_fs]
      rcases osMkdirAll st.1.fs (Split (Join dir (Clean header.Name))).1 with ⟨fs2, _ | err⟩
      · dsimp only
        rw [if_neg (by simp)]
        rcases osCreate fs2 (Join dir (Clean header.Name)) with ⟨fs3, err | f⟩
        · exact ⟨by simp, by simp, rfl, rfl, rfl⟩
        · dsimp only
          refine ⟨by simp, by simp, ?_, by simp, ?_⟩
          · cases hz : (ioCopy env fs3 zipr f zf).2 <;> simp [lastFailure, hz]
          · cases hz : (ioCopy env fs3 zipr f zf).2 <;> simp [lastFailure, hz]
      · dsimp only
        rw [if_pos (by simp)]
        exact ⟨by simp, by simp, rfl, rfl, rfl⟩

/-- The loop performs the steps that the specification prescribes for the
entries, in archive order, and leaves in `lasterr` their latest failure, or
the initial value; the file system becomes that of `expandLoopFS`. -/
lemma expandLoop_spec (env : Env M C) (zipr : ZipReader) (dir : GoString) (l : List ZipFile)
    (st : World × Option Error) :
    (l.foldl (expandEntry env zipr dir) st).1.trace =
        st.1.trace ++ specSteps env zipr dir l st.1.fs ∧
      (l.foldl (expandEntry env zipr dir) st).1.fs = expandLoopFS env zipr dir l st.1.fs ∧
      (l.foldl (expandEntry env zipr dir) st).2 =
        match lastFailure (specSteps env zipr dir l st.1.fs) with
        | some e => some e
        | none => st.2 := by
  induction l generalizing st with
  | nil => exact ⟨by simp [specSteps], rfl, rfl⟩
  | cons h rest ih =>
    obtain ⟨ht1, -, -, hfs1, he1⟩ := expandEntry_spec env zipr dir st h
    obtain ⟨ht2, hfs2, he2⟩ := ih (expandEntry env zipr dir st h)
    rw [List.foldl_cons, specSteps_cons, expandLoopFS_cons]
    refine ⟨?_, ?_, ?_⟩
    · rw [ht2, ht1, hfs1, List.append_assoc]
    · rw [hfs2, hfs1]
    · rw [he2, he1, hfs1, lastFailure_append]
      cases lastFailure (specSteps env zipr dir rest (expandEntryFS env zipr dir st.1.fs h).1) <;>
        rfl

/-- The latest failure of the steps of an entry is the failure of the
entry. -/
lemma lastFailure_specEntrySteps (env : Env M C) (zipr : ZipReader) (dir : GoString) (fs : FS)
    (h : ZipFile) :
    lastFailure (specEntrySteps env zipr dir fs h) = (expandEntryFS env zipr dir fs h).2 :=
  (expandEntry_spec env zipr dir ({ fs := fs, handles := [], trace := [] }, none) h).2.2.1

/-- No step of the entries fails exactly when no entry fails. -/
lemma lastFailure_specSteps_none_iff (env : Env M C) (zipr : ZipReader) (dir : GoString)
    (l : List ZipFile) (fs : FS) :
    lastFailure (specSteps env zipr dir l fs) = none ↔ expandLoopOk env zipr dir l fs := by
  induction l generalizing fs with
  | nil => simp [specSteps, expandLoopOk, lastFailure]
  | cons h rest ih =>
    rw [specSteps_cons, lastFailure_append, expandLoopOk_cons, ← ih,
      lastFailure_specEntrySteps]
    cases lastFailure (specSteps env zipr dir rest (expandEntryFS env zipr dir fs h).1) <;> simp

/-- The latest failure is that of an entry after which no entry fails. -/
lemma lastFailure_specSteps_of_split (env : Env M C) (zipr : ZipReader) (dir : GoString)
    (pre : List ZipFile) (h : ZipFile) (post : List ZipFile) (fs : FS) (e : Error)
    (hfail : (expandEntryFS env zipr dir (expandLoopFS env zipr dir pre fs) h).2 = some e)
    (hpost : expandLoopOk env zipr dir post
      (expandEntryFS env zipr dir (expandLoopFS env zipr dir pre fs) h).1) :
    lastFailure (specSteps env zipr dir (pre ++ h :: post) fs) = some e := by
  induction pre generalizing fs with
  | nil =>
    have hfail1 : (expandEntryFS env zipr dir fs h).2 = some e := hfail
    have hpost1 : expandLoopOk env zipr dir post (expandEntryFS env zipr dir fs h).1 := hpost
    rw [List.nil_append, specSteps_cons, lastFailure_append,
      (lastFailure_specSteps_none_iff env zipr dir post _).2 hpost1, lastFailure_specEntrySteps]
    exact hfail1
  | cons x rest ih =>
    have hfail1 : (expandEntryFS env zipr dir
        (expandLoopFS env zipr dir rest (expandEntryFS env zipr dir fs x).1) h).2 = some e := hfail
    rw [List.cons_append, specSteps_cons, lastFailure_append, ih _ hfail1 hpost]

/-- `ExpandTo` is the loop once the source has been re-opened and parsed;
only the handle of the archive file is released afterwards. -/
lemma ExpandTo_of_reopened (env : Env M C) (b : Bundle M C) (dir : GoString) (w : World)
    (r : ReaderAt) (size : Int) (zipr : ZipReader) (hsrc : Reopened b w r size)
    (hzip : zipNewReader env w.fs r size = Except.ok zipr) :
    ∃ w0 : World, w0.fs = w.fs ∧ w0.trace = w.trace ∧
      (w0.handles = w.handles ∨ w0.handles = Handle.file b.Path :: w.handles) ∧
      (b.ExpandTo env dir w).2 = (zipr.File.foldl (expandEntry env zipr dir) (w0, none)).2 ∧
      (b.ExpandTo env dir w).1.fs =
        (zipr.File.foldl (expandEntry env zipr dir) (w0, none)).1.fs ∧
      (b.ExpandTo env dir w).1.trace =
        (zipr.File.foldl (expandEntry env zipr dir) (w0, none)).1.trace := by
  rcases hsrc with ⟨hp, hr, hs⟩ | ⟨hp, f, fi, hopen, hstat, hr, hs⟩
  · subst hr hs
    refine ⟨w, rfl, rfl, Or.inl rfl, ?_⟩
    simp only [Bundle.ExpandTo, hp, ne_eq, not_true_eq_false, if_false, expandFrom, hzip]
    simp
  · subst hr hs
    refine ⟨w.acquire (Handle.file b.Path), rfl, rfl, Or.inr rfl, ?_⟩
    have hzip1 : zipNewReader env (w.acquire (Handle.file b.Path)).fs (ReaderAt.file f) fi.Size =
        Except.ok zipr := hzip
    simp only [Bundle.ExpandTo, hp, ne_eq, not_false_eq_true, if_true, hopen, hstat, expandFrom,
      hzip1]
    simp

/-- C2: once the archive has been re-opened and parsed into `zipr`,
`ExpandTo` performs, for the entries of `zipr` in archive order, the steps
of the specification (open entry, create directory, create file, copy), and
its result is nil exactly when none of these steps failed, and otherwise it
is the error of the failed step that comes latest, whatever failed before:
the failure of an entry after which no entry fails. -/
theorem ExpandTo_returns_last_failure (env : Env M C) (b : Bundle M C) (dir : GoString)
    (w : World) (r : ReaderAt) (size : Int) (zipr : ZipReader) (hsrc : Reopened b w r size)
    (hzip : zipNewReader env w.fs r size = Except.ok zipr) :
    (b.ExpandTo env dir w).1.trace = w.trace ++ specSteps env zipr dir zipr.File w.fs ∧
    ((b.ExpandTo env dir w).2 = none ↔
      ∀ ev ∈ specSteps env zipr dir zipr.File w.fs, ev.err = none) ∧
    (∀ e, (b.ExpandTo env dir w).2 = some e ↔
      ∃ pre ev post, specSteps env zipr dir zipr.File w.fs = pre ++ ev :: post ∧
        ev.err = some e ∧ ∀ x ∈ post, x.err = none) ∧
    (∀ pre h post e, zipr.File = pre ++ h :: post →
      (expandEntryFS env zipr dir (expandLoopFS env zipr dir pre w.fs) h).2 = some e →
      expandLoopOk env zipr dir post
        (expandEntryFS env zipr dir (expandLoopFS env zipr dir pre w.fs) h).1 →
      (b.ExpandTo env dir w).2 = some e) := by
  obtain ⟨w0, hfs0, htr, -, herr, -, htrace⟩ :=
    ExpandTo_of_reopened env b dir w r size zipr hsrc hzip
  obtain ⟨ht, -, he⟩ := expandLoop_spec env zipr dir zipr.File (w0, none)
  simp only [hfs0] at ht he
  have hres : (b.ExpandTo env dir w).2 = lastFailure (specSteps env zipr dir zipr.File w.fs) := by
    rw [herr, he]
    cases lastFailure (specSteps env zipr dir zipr.File w.fs) <;> rfl
  refine ⟨?_, ?_, ?_, ?_⟩
  · rw [htrace, ht, htr]
  · rw [hres]
    exact lastFailure_eq_none_iff _
  · intro e
    rw [hres]
    exact lastFailure_eq_some_iff _ e
  · intro pre h post e hsplit hfail hpost
    rw [hres, hsplit]
    exact lastFailure_specSteps_of_split env zipr dir pre h post w.fs e hfail hpost

/-- The witness of C2: in the archive with the unreadable entries `b1` and
`b2`, the result is the error of `b2`, the later of the two, and the trace
holds the steps of all five entries. -/
theorem ExpandTo_returns_last_failure_witness :
    ((memBundle [80, 75, 4]).ExpandTo demoEnv "/srv/T".toList emptyWorld).2 =
        some (Error.lib (LibError.zip 9)) ∧
    (((memBundle [80, 75, 4]).ExpandTo demoEnv "/srv/T".toList emptyWorld).1.trace.map
        (fun ev => (ev.step, ev.name.asString, ev.err.isSome))) =
      [(Step.openEntry, "metadata.yaml", false), (Step.mkdirAll, "metadata.yaml", false),
       (Step.create, "metadata.yaml", false), (Step.copy, "metadata.yaml", false),
       (Step.openEntry, "b1", true),
       (Step.openEntry, "config.yaml", false), (Step.mkdirAll, "config.yaml", false),
       (Step.create, "config.yaml", false), (Step.copy, "config.yaml", false),
       (Step.openEntry, "b2", true),
       (Step.openEntry, "ok.txt", false), (Step.mkdirAll, "ok.txt", false),
       (Step.create, "ok.txt", false), (Step.copy, "ok.txt", false)] ∧
    ((memBundle [80, 75, 4]).ExpandTo demoEnv "/srv/T".toList emptyWorld).1.trace =
      emptyWorld.trace ++ specSteps demoEnv
        { r := ReaderAt.bytes [80, 75, 4], size := 3, File := brokenEntries } "/srv/T".toList
        brokenEntries emptyWorld.fs :=
  ⟨by decide, by decide,
    (ExpandTo_returns_last_failure demoEnv (memBundle [80, 75, 4]) "/srv/T".toList emptyWorld
      (ReaderAt.bytes [80, 75, 4]) 3
      { r := ReaderAt.bytes [80, 75, 4], size := 3, File := brokenEntries }
      (Or.inl ⟨rfl, rfl, rfl⟩) rfl).1⟩

end Charm

namespace Charm

/-! ## Two defects of `ExpandTo`, and expansion over its own archive -/

/-- C1 fails on the code: expanding the archive of the specification's
example into `/srv/T`, from an empty file system, succeeds and creates the
file `/srv/etc/evil`, the destination computed for the entry
`c/../../etc/evil`, which is not lexically inside `/srv/T`. -/
theorem ExpandTo_escapes_dir :
    ReadBundleBytes demoEnv [80, 75, 1] = (some (memBundle [80, 75, 1]), none) ∧
    Clean "c/../../etc/evil".toList = "../etc/evil".toList ∧
    destPath "/srv/T".toList (goodEntry "c/../../etc/evil" [66]) = "/srv/etc/evil".toList ∧
    lexicallyInside "/srv/T".toList "/srv/etc/evil".toList = false ∧
    ((memBundle [80, 75, 1]).ExpandTo demoEnv "/srv/T".toList emptyWorld).2 = none ∧
    emptyWorld.fs "/srv/etc/evil".toList = none ∧
    ((memBundle [80, 75, 1]).ExpandTo demoEnv "/srv/T".toList emptyWorld).1.fs
      "/srv/etc/evil".toList = some (Node.file [66]) ∧
    ((memBundle [80, 75, 1]).ExpandTo demoEnv "/srv/T".toList emptyWorld).1.fs
      "/srv/T/a/b.txt".toList = some (Node.file [104, 101, 108, 108, 111]) :=
  ⟨rfl, by decide⟩

/-- C10 fails on the code: after expanding a bundle whose entry `hooks/` is a
directory marker, with no step failing, the stream that `header.Open()`
returned for `hooks/` is still open, while `ExpandTo` started with no open
handle. -/
theorem ExpandTo_leaks_directory_stream :
    ReadBundleBytes demoEnv [80, 75, 2] = (some (memBundle [80, 75, 2]), none) ∧
    emptyWorld.handles = [] ∧
    ((memBundle [80, 75, 2]).ExpandTo demoEnv "/srv/T".toList emptyWorld).2 = none ∧
    ((memBundle [80, 75, 2]).ExpandTo demoEnv "/srv/T".toList emptyWorld).1.fs
      "/srv/T/hooks".toList = some Node.dir ∧
    ((memBundle [80, 75, 2]).ExpandTo demoEnv "/srv/T".toList emptyWorld).1.handles =
      [Handle.entry "hooks/".toList] :=
  ⟨rfl, by decide⟩

/-- The counterexample to C9 as stated: the archive `/srv/T/x` holds an empty
entry `x` as its last entry.  The first expansion into `/srv/T` returns nil
and leaves the empty file `/srv/T/x` where the archive was; the second
expansion re-opens that path and fails, because the file is no longer an
archive. -/
theorem ExpandTo_twice_fails_on_overwritten_archive :
    ReadBundle demoEnv selfFS "/srv/T/x".toList = (some selfBundle, none) ∧
    (selfBundle.ExpandTo demoEnv "/srv/T".toList selfWorld).2 = none ∧
    (selfBundle.ExpandTo demoEnv "/srv/T".toList selfWorld).1.fs "/srv/T/x".toList =
      some (Node.file []) ∧
    (selfBundle.ExpandTo demoEnv "/srv/T".toList
      (selfBundle.ExpandTo demoEnv "/srv/T".toList selfWorld).1).2 =
      some (Error.lib (LibError.zip 0)) :=
  ⟨rfl, by decide⟩

end Charm

namespace Charm

variable {M C : Type}

/-! ## What the steps of `ExpandTo` change in the file system -/

lemma FS.set_apply (fs : FS) (k : GoString) (n : Node) (q : GoString) :
    (fs.set k n) q = if q = k then some n else fs q := rfl

lemma FS.set_same (fs : FS) (k : GoString) (n : Node) : (fs.set k n) k = some n := by
  simp [FS.set_apply]

lemma FS.set_other (fs : FS) (k : GoString) (n : Node) (q : GoString) (h : q ≠ k) :
    (fs.set k n) q = fs q := by
  simp [FS.set_apply, h]

/-- A path for which nothing is stored. -/
lemma lookup_none (fs : FS) (p : GoString) (hp : p ≠ []) (h : lookup fs p = none) :
    fs (key p) = none := by
  unfold lookup at h
  rw [if_neg hp] at h
  by_cases hk : key p = ['/'] ∨ key p = ['.']
  · rw [if_pos hk] at h
    cases h
  · rw [if_neg hk] at h
    exact h

/-- A regular file found by `os.Stat` is stored under the key of its
name. -/
lemma stat_file (fs : FS) (p : GoString) (d : List Byte) (h : stat fs p = some (Node.file d)) :
    fs (key p) = some (Node.file d) := by
  unfold stat at h
  cases hl : lookup fs p with
  | none =>
    rw [hl] at h
    cases h
  | some nd =>
    rw [hl] at h
    cases nd with
    | dir => cases h
    | file d1 =>
      dsimp only at h
      split at h
      · cases h
      · simp only [Option.some.injEq, Node.file.injEq] at h
        subst h
        unfold lookup at hl
        split at hl
        · cases hl
        · split at hl
          · cases hl
          · exact hl

/-- `os.Mkdir` changes no node that exists. -/
lemma osMkdir_preserves (fs : FS) (p q : GoString) (n : Node) (h : fs q = some n) :
    (osMkdir fs p).1 q = some n := by
  unfold osMkdir
  by_cases hp : p = []
  · rw [if_pos hp]
    exact h
  · rw [if_neg hp]
    by_cases hs : lookup fs p ≠ none
    · rw [if_pos hs]
      exact h
    · rw [if_neg hs]
      by_cases hd : parentIsDir fs p = true
      · rw [if_pos hd]
        have hnone : fs (key p) = none := lookup_none fs p hp (not_not.1 hs)
        have hq : q ≠ key p := by
          intro hqk
          rw [hqk, hnone] at h
          cases h
        simp only [FS.set_other fs (key p) Node.dir q hq, h]
      · rw [if_neg hd]
        exact h

/-- The last step of `os.MkdirAll` changes no node that exists. -/
lemma mkdirLast_preserves (fs : FS) (p q : GoString) (n : Node) (h : fs q = some n) :
    (mkdirLast fs p).1 q = some n := by
  have hm := osMkdir_preserves fs p q n h
  unfold mkdirLast
  rcases hr : osMkdir fs p with ⟨fs1, _ | err⟩
  · rw [hr] at hm
    exact hm
  · rw [hr] at hm
    dsimp only
    split <;> exact hm

/-- `os.MkdirAll` changes no node that exists. -/
lemma mkdirAllFuel_preserves (fuel : Nat) (fs : FS) (p q : GoString) (n : Node)
    (h : fs q = some n) : (mkdirAllFuel fuel fs p).1 q = some n := by
  induction fuel generalizing fs p with
  | zero =>
    unfold mkdirAllFuel
    split
    · exact h
    · exact h
    · split
      · exact mkdirLast_preserves fs p q n h
      · exact h
  | succ k ih =>
    unfold mkdirAllFuel
    split
    · exact h
    · exact h
    · split
      · exact mkdirLast_preserves fs p q n h
      · rename_i parent hpar
        have hrec := ih fs parent h
        rcases hr : mkdirAllFuel k fs parent with ⟨fs1, _ | err⟩
        · rw [hr] at hrec
          exact mkdirLast_preserves fs1 p q n hrec
        · rw [hr] at hrec
          exact hrec

/-- `os.MkdirAll` changes no node that exists. -/
lemma osMkdirAll_preserves (fs : FS) (p q : GoString) (n : Node) (h : fs q = some n) :
    (osMkdirAll fs p).1 q = some n :=
  mkdirAllFuel_preserves p.length fs p q n h

/-- `os.Create` changes the file system at its path only. -/
lemma osCreate_other (fs : FS) (p q : GoString) (h : q ≠ p) : (osCreate fs p).1 q = fs q := by
  unfold osCreate
  split
  · rfl
  · split
    · rfl
    · split
      · rfl
      · split
        · exact FS.set_other fs p _ q h
        · rfl

/-- When `os.Create` succeeds, the file it opened is the empty file at its
path. -/
lemma osCreate_ok (fs : FS) (p f : GoString) (h : (osCreate fs p).2 = Except.ok f) :
    f = p ∧ (osCreate fs p).1 = fs.set p (Node.file []) ∧ p ≠ [] ∧ HasSuffix p ['/'] = false ∧
      stat fs p ≠ some Node.dir ∧ parentIsDir fs p = true := by
  unfold osCreate at h ⊢
  by_cases h1 : p = []
  · rw [if_pos h1] at h
    cases h
  · rw [if_neg h1] at h ⊢
    by_cases h2 : HasSuffix p ['/'] = true
    · rw [if_pos h2] at h
      cases h
    · rw [if_neg h2] at h ⊢
      by_cases h3 : stat fs p = some Node.dir
      · rw [if_pos h3] at h
        cases h
      · rw [if_neg h3] at h ⊢
        by_cases h4 : parentIsDir fs p = true
        · rw [if_pos h4] at h ⊢
          simp only [Except.ok.injEq] at h
          exact ⟨h.symm, rfl, h1, by simpa using h2, h3, h4⟩
        · rw [if_neg h4] at h
          cases h

/-- One pass of the loop leaves every existing node as it is, except
possibly the node at the destination of a file entry. -/
lemma expandEntryFS_frame (env : Env M C) (zipr : ZipReader) (dir : GoString) (fs : FS)
    (h : ZipFile) (q : GoString) (n : Node)
    (hq : fs q = some n) (hne : q ≠ destPath dir h ∨ HasSuffix h.Name ['/'] = true) :
    (expandEntryFS env zipr dir fs h).1 q = some n := by
  unfold expandEntryFS
  cases h.Open env fs zipr with
  | error err => exact hq
  | ok zf =>
    dsimp only
    by_cases hs : HasSuffix h.Name ['/'] = true
    · rw [if_pos hs]
      exact osMkdirAll_preserves fs _ q n hq
    · rw [if_neg hs]
      have hq2 : q ≠ Join dir (Clean h.Name) := by
        rcases hne with hne | hne
        · exact hne
        · exact absurd hne hs
      have hm := osMkdirAll_preserves fs (Split (Join dir (Clean h.Name))).1 q n hq
      rcases hmk : osMkdirAll fs (Split (Join dir (Clean h.Name))).1 with ⟨fs2, _ | err⟩
      · rw [hmk] at hm
        dsimp only at hm ⊢
        have hc := osCreate_other fs2 (Join dir (Clean h.Name)) q hq2
        rcases hcr : osCreate fs2 (Join dir (Clean h.Name)) with ⟨fs3, err | f⟩
        · rw [hcr] at hc
          dsimp only at hc ⊢
          rw [hc, hm]
        · have hf := (osCreate_ok fs2 (Join dir (Clean h.Name)) f (by rw [hcr])).1
          rw [hcr] at hc
          dsimp only at hc ⊢
          subst hf
          simp only [ioCopy, FS.set_other fs3 _ _ q hq2, hc, hm]
      · rw [hmk] at hm
        exact hm

/-- The loop leaves every existing node as it is, unless a file entry has
its path as destination. -/
lemma expandLoopFS_frame (env : Env M C) (zipr : ZipReader) (dir : GoString)
    (l : List ZipFile) (fs : FS) (q : GoString) (n : Node) (hq : fs q = some n)
    (hne : ∀ h ∈ l, q ≠ destPath dir h ∨ HasSuffix h.Name ['/'] = true) :
    expandLoopFS env zipr dir l fs q = some n := by
  induction l generalizing fs with
  | nil => exact hq
  | cons h rest ih =>
    rw [expandLoopFS_cons]
    exact ih _ (expandEntryFS_frame env zipr dir fs h q n hq (hne h (List.mem_cons_self _ _)))
      (fun x hx => hne x (List.mem_cons_of_mem _ hx))

/-- The structure of a pass that records no failure for a file entry: the
entry opens, the parent directory and the file are created, and the content
that the stream delivers after `os.Create` is written to the file. -/
lemma expandEntryFS_ok_file (env : Env M C) (zipr : ZipReader) (dir : GoString) (S : FS)
    (h : ZipFile) (hok : (expandEntryFS env zipr dir S h).2 = none)
    (hfile : HasSuffix h.Name ['/'] = false) :
    ∃ zf S1, h.Open env S zipr = Except.ok zf ∧
      osMkdirAll S (Split (destPath dir h)).1 = (S1, none) ∧
      (osCreate S1 (destPath dir h)).2 = Except.ok (destPath dir h) ∧
      (zf.readAll env (S1.set (destPath dir h) (Node.file [])) zipr).err = none ∧
      (expandEntryFS env zipr dir S h).1 =
        (S1.set (destPath dir h) (Node.file [])).set (destPath dir h)
          (Node.file (zf.readAll env (S1.set (destPath dir h) (Node.file [])) zipr).bytes) := by
  unfold expandEntryFS at hok ⊢
  cases hopen : h.Open env S zipr with
  | error err =>
    rw [hopen] at hok
    cases hok
  | ok zf =>
    rw [hopen] at hok
    dsimp only at hok ⊢
    have hs : ¬ (HasSuffix h.Name ['/'] = true) := by simp [hfile]
    rw [if_neg hs] at hok ⊢
    rcases hmk : osMkdirAll S (Split (Join dir (Clean h.Name))).1 with ⟨S1, _ | err⟩
    · rw [hmk] at hok
      dsimp only at hok ⊢
      rcases hcr : osCreate S1 (Join dir (Clean h.Name)) with ⟨S2, err | f⟩
      · rw [hcr] at hok
        cases hok
      · rw [hcr] at hok
        dsimp only at hok ⊢
        obtain ⟨hf, hS2, -⟩ := osCreate_ok S1 (Join dir (Clean h.Name)) f (by rw [hcr])
        rw [hcr] at hS2
        dsimp only at hS2
        subst hf hS2
        refine ⟨zf, S1, rfl, ?_, ?_, ?_, rfl⟩
        · simp only [destPath, hmk]
        · simp only [destPath, hcr]
        · exact hok
    · rw [hmk] at hok
      cases hok

/-- The steps of `pre ++ e :: post` are those of `pre`, then those of `e`,
then those of `post`. -/
lemma specSteps_split (env : Env M C) (zipr : ZipReader) (dir : GoString) (pre : List ZipFile)
    (e : ZipFile) (post : List ZipFile) (fs : FS) :
    specSteps env zipr dir (pre ++ e :: post) fs =
      specSteps env zipr dir pre fs ++
        (specEntrySteps env zipr dir (expandLoopFS env zipr dir pre fs) e ++
          specSteps env zipr dir post
            (expandEntryFS env zipr dir (expandLoopFS env zipr dir pre fs) e).1) := by
  induction pre generalizing fs with
  | nil => rfl
  | cons x rest ih =>
    rw [List.cons_append, specSteps_cons, specSteps_cons, ih, expandLoopFS_cons,
      List.append_assoc]

/-- What `zip.NewReader` returns reads the source it was given, and the
source served bytes that are not empty. -/
lemma zipNewReader_ok (env : Env M C) (fs : FS) (r : ReaderAt) (size : Int) (zipr : ZipReader)
    (h : zipNewReader env fs r size = Except.ok zipr) :
    zipr.r = r ∧ zipr.size = size ∧
      ∃ bs, served fs r size = Except.ok bs ∧ bs ≠ [] ∧
        env.NewReader bs size = Except.ok zipr.File := by
  unfold zipNewReader at h
  cases hs : served fs r size with
  | error e =>
    rw [hs] at h
    cases h
  | ok bs =>
    rw [hs] at h
    dsimp only at h
    cases hn : env.NewReader bs size with
    | error e =>
      rw [hn] at h
      cases h
    | ok files =>
      rw [hn] at h
      simp only [Except.ok.injEq] at h
      subst h
      refine ⟨rfl, rfl, bs, rfl, ?_, hn⟩
      intro hbs
      subst hbs
      obtain ⟨e, he⟩ := env.NewReader_nothing size
      rw [he] at hn
      cases hn

/-- A source that serves bytes is stored in the file system when it is a
file. -/
lemma served_ok_stored (fs : FS) (r : ReaderAt) (size : Int) (bs : List Byte)
    (h : served fs r size = Except.ok bs) :
    ∀ k, srcKey r = some k → ∃ d, fs k = some (Node.file d) ∧ bs = d.take size.toNat := by
  intro k hk
  cases r with
  | bytes b => cases hk
  | file f =>
    simp only [srcKey, Option.some.injEq] at hk
    subst hk
    by_cases hf : ∃ d, stat fs f.name = some (Node.file d)
    · obtain ⟨d, hd⟩ := hf
      rw [served_file fs f d size hd] at h
      simp only [Except.ok.injEq] at h
      exact ⟨d, stat_file fs f.name d hd, h.symm⟩
    · push_neg at hf
      rw [served_not_file fs f size hf] at h
      cases h

/-- The steps of an entry depend on the file system they read the source
from only through the node of the source. -/
lemma served_kept (A B : FS) (r : ReaderAt) (size : Int)
    (h : ∀ k, srcKey r = some k → B k = A k) : served B r size = served A r size :=
  served_congr B A r size h

/-! ## Best-effort extraction -/

/-- C3: once the archive has been re-opened and parsed, if the entries have
pairwise distinct destination paths, none of them the archive itself, and
`e` is a file entry (its name does not end in `/`) all of whose recorded
steps succeeded, then after `ExpandTo(dir)` the file at
`Join(dir, Clean(e.Name))` holds exactly the content of `e`, the bytes that
the stream of `e` delivers from the archive, whatever happened to the other
entries. -/
theorem ExpandTo_extracts_every_good_file (env : Env M C) (b : Bundle M C) (dir : GoString)
    (w : World) (r : ReaderAt) (size : Int) (zipr : ZipReader) (e : ZipFile)
    (hsrc : Reopened b w r size) (hzip : zipNewReader env w.fs r size = Except.ok zipr)
    (hdistinct : (zipr.File.map (destPath dir)).Nodup)
    (hkeep : NotOverwritten r dir zipr.File)
    (he : e ∈ zipr.File) (hfile : HasSuffix e.Name ['/'] = false)
    (hsteps : ∀ ev ∈ (b.ExpandTo env dir w).1.trace.drop w.trace.length,
      ev.name = e.Name → ev.err = none) :
    ∃ zf, e.Open env w.fs zipr = Except.ok zf ∧
      (b.ExpandTo env dir w).1.fs (Join dir (Clean e.Name)) =
        some (Node.file (zf.readAll env w.fs zipr).bytes) := by
  obtain ⟨w0, hfs0, htr0, -, -, hfs, htrace⟩ :=
    ExpandTo_of_reopened env b dir w r size zipr hsrc hzip
  obtain ⟨hzr, hzs, bs, hserved, -, -⟩ := zipNewReader_ok env w.fs r size zipr hzip
  obtain ⟨pre, post, hsplit⟩ := List.append_of_mem he
  obtain ⟨ht, hloopfs, -⟩ := expandLoop_spec env zipr dir zipr.File (w0, none)
  simp only [hfs0] at ht hloopfs
  have hdrop : (b.ExpandTo env dir w).1.trace.drop w.trace.length =
      specSteps env zipr dir zipr.File w.fs := by
    rw [htrace, ht, htr0]
    exact List.drop_left _ _
  rw [hdrop, hsplit, specSteps_split] at hsteps
  rw [hsplit] at hdistinct hkeep
  -- the steps of `e` all succeed
  have hgood : ∀ ev ∈ specEntrySteps env zipr dir (expandLoopFS env zipr dir pre w.fs) e,
      ev.err = none := by
    intro ev hev
    apply hsteps ev (List.mem_append_right _ (List.mem_append_left _ hev))
    exact (expandEntry_spec env zipr dir
      ({ fs := expandLoopFS env zipr dir pre w.fs, handles := [], trace := [] }, none) e).2.1
      ev hev
  have hok : (expandEntryFS env zipr dir (expandLoopFS env zipr dir pre w.fs) e).2 = none := by
    rw [← lastFailure_specEntrySteps]
    exact (lastFailure_eq_none_iff _).2 hgood
  obtain ⟨zf, S1, hopen, hmk, hcr, -, hres⟩ :=
    expandEntryFS_ok_file env zipr dir _ e hok hfile
  -- the source is the same before `e`, and after `os.Create`, as at the start
  have hstored := served_ok_stored w.fs r size bs hserved
  have hpreK : ∀ k, srcKey zipr.r = some k → expandLoopFS env zipr dir pre w.fs k = w.fs k := by
    intro k hk
    rw [hzr] at hk
    obtain ⟨d, hd, -⟩ := hstored k hk
    rw [hd]
    apply expandLoopFS_frame env zipr dir pre w.fs k _ hd
    intro h hh
    by_cases hs : HasSuffix h.Name ['/'] = true
    · exact Or.inr hs
    · left
      intro hkd
      exact hkeep k hk h (List.mem_append_left _ hh) (by simpa using hs) hkd.symm
  have hcreateK : ∀ k, srcKey zipr.r = some k →
      (S1.set (destPath dir e) (Node.file [])) k = w.fs k := by
    intro k hk
    have hk1 := hk
    rw [hzr] at hk1
    obtain ⟨d, hd, -⟩ := hstored k hk1
    have hne : k ≠ destPath dir e := fun hkd =>
      hkeep k hk1 e (List.mem_append_right _ (List.mem_cons_self _ _)) hfile hkd.symm
    rw [FS.set_other _ _ _ k hne]
    have := osMkdirAll_preserves (expandLoopFS env zipr dir pre w.fs) (Split (destPath dir e)).1
      k (Node.file d) (by rw [hpreK k hk, hd])
    rw [hmk] at this
    have this2 : S1 k = some (Node.file d) := this
    rw [this2, hd]
  have hopen0 : e.Open env w.fs zipr = Except.ok zf := by
    rw [← hopen]
    exact ZipFile.Open_congr env _ _ zipr zipr e (served_kept _ _ _ _ hpreK).symm
  have hread0 : zf.readAll env (S1.set (destPath dir e) (Node.file [])) zipr =
      zf.readAll env w.fs zipr :=
    EntryReader.readAll_congr env _ _ zipr zipr zf (served_kept _ _ _ _ hcreateK)
  refine ⟨zf, hopen0, ?_⟩
  have hat : (expandEntryFS env zipr dir (expandLoopFS env zipr dir pre w.fs) e).1
      (destPath dir e) = some (Node.file (zf.readAll env w.fs zipr).bytes) := by
    rw [hres, FS.set_same, hread0]
  rw [hfs, hloopfs, hsplit, expandLoopFS_append, expandLoopFS_cons]
  apply expandLoopFS_frame env zipr dir post _ _ _ hat
  intro h hh
  left
  intro heq
  rw [List.map_append, List.map_cons] at hdistinct
  have hnd := (List.nodup_append.1 hdistinct).2.1
  rw [List.nodup_cons] at hnd
  exact hnd.1 (by rw [heq]; exact List.mem_map_of_mem _ hh)

/-- The witness of C3: the entry `ok.txt` of the archive with two unreadable
entries is extracted. -/
theorem ExpandTo_extracts_every_good_file_witness :
    ∃ zf, (goodEntry "ok.txt" [5]).Open demoEnv emptyWorld.fs
        { r := ReaderAt.bytes [80, 75, 4], size := 3, File := brokenEntries } = Except.ok zf ∧
      ((memBundle [80, 75, 4]).ExpandTo demoEnv "/srv/T".toList emptyWorld).1.fs
        (Join "/srv/T".toList (Clean (goodEntry "ok.txt" [5]).Name)) =
          some (Node.file (zf.readAll demoEnv emptyWorld.fs
            { r := ReaderAt.bytes [80, 75, 4], size := 3, File := brokenEntries }).bytes) :=
  ExpandTo_extracts_every_good_file demoEnv (memBundle [80, 75, 4]) "/srv/T".toList emptyWorld
    (ReaderAt.bytes [80, 75, 4]) 3
    { r := ReaderAt.bytes [80, 75, 4], size := 3, File := brokenEntries } (goodEntry "ok.txt" [5])
    (Or.inl ⟨rfl, rfl, rfl⟩) rfl (by decide) (fun k hk => by cases hk)
    (by simp [brokenEntries]) (by decide) (by decide)

end Charm

namespace Charm

variable {M C : Type}

/-! ## Expanding twice -/

/-- A non-empty path that does not end in a separator is its own key. -/
lemma key_of_no_slash (p : GoString) (hp : p ≠ []) (hs : HasSuffix p ['/'] = false) :
    key p = p := by
  have hrev : p.reverse ≠ [] := by simpa using hp
  obtain ⟨c, t, hct⟩ := List.exists_cons_of_ne_nil hrev
  have hc : c ≠ '/' := by
    intro hc
    have : HasSuffix p ['/'] = true := by
      unfold HasSuffix List.isSuffixOf
      rw [hct, hc]
      simp [List.isPrefixOf]
    rw [hs] at this
    cases this
  have htrim : trimSlash p = p := by
    unfold trimSlash
    rw [hct, List.dropWhile_cons_of_neg (by simpa using hc), ← hct, List.reverse_reverse]
  unfold key
  rw [htrim, if_neg hp]

lemma Extends.refl (A : FS) : Extends A A :=
  fun _ => ⟨fun h => h, fun c h => ⟨c, h⟩⟩

lemma Extends.trans {A B D : FS} (h1 : Extends A B) (h2 : Extends B D) : Extends A D := by
  intro q
  refine ⟨fun h => (h2 q).1 ((h1 q).1 h), fun c h => ?_⟩
  obtain ⟨c1, hc1⟩ := (h1 q).2 c h
  exact (h2 q).2 c1 hc1

/-- A file system in which every node of `A` is unchanged extends `A`. -/
lemma Extends.of_preserves {A B : FS} (h : ∀ q n, A q = some n → B q = some n) : Extends A B :=
  fun q => ⟨fun hq => h q _ hq, fun c hq => ⟨c, h q _ hq⟩⟩

/-- Writing a file where there is no directory extends the file system. -/
lemma Extends.set_file (A : FS) (p : GoString) (c : List Byte) (h : A p ≠ some Node.dir) :
    Extends A (A.set p (Node.file c)) := by
  intro q
  by_cases hq : q = p
  · subst hq
    refine ⟨fun hd => absurd hd h, fun _ _ => ⟨c, FS.set_same A q _⟩⟩
  · rw [FS.set_other A p _ q hq]
    exact ⟨fun hd => hd, fun c1 hc1 => ⟨c1, hc1⟩⟩

/-- `os.Stat` finds a directory exactly when a directory is stored. -/
lemma stat_dir_iff (fs : FS) (p : GoString) :
    stat fs p = some Node.dir ↔ lookup fs p = some Node.dir := by
  unfold stat
  cases lookup fs p with
  | none => simp
  | some nd =>
    cases nd with
    | dir => simp
    | file d =>
      dsimp only
      split <;> simp

/-- A directory that is stored is stored in every extension. -/
lemma lookup_dir_mono {A B : FS} (h : Extends A B) (p : GoString)
    (hs : lookup A p = some Node.dir) : lookup B p = some Node.dir := by
  unfold lookup at hs ⊢
  by_cases hp : p = []
  · rw [if_pos hp] at hs
    cases hs
  · rw [if_neg hp] at hs ⊢
    by_cases hk : key p = ['/'] ∨ key p = ['.']
    · rw [if_pos hk]
    · rw [if_neg hk] at hs ⊢
      exact (h (key p)).1 hs

/-- A directory found by `os.Stat` is found in every extension. -/
lemma stat_dir_mono {A B : FS} (h : Extends A B) (p : GoString)
    (hs : stat A p = some Node.dir) : stat B p = some Node.dir :=
  (stat_dir_iff B p).2 (lookup_dir_mono h p ((stat_dir_iff A p).1 hs))

lemma parentIsDir_mono {A B : FS} (h : Extends A B) (p : GoString)
    (hs : parentIsDir A p = true) : parentIsDir B p = true := by
  unfold parentIsDir at hs ⊢
  by_cases hd : (Split (key p)).1 = []
  · simp [hd]
  · simp only [hd, if_false, decide_eq_true_eq] at hs ⊢
    exact stat_dir_mono h _ hs

/-- `os.MkdirAll` on an existing directory succeeds and changes nothing. -/
lemma osMkdirAll_of_dir (fs : FS) (p : GoString) (h : stat fs p = some Node.dir) :
    osMkdirAll fs p = (fs, none) := by
  unfold osMkdirAll
  cases p.length <;> simp [mkdirAllFuel, h]

/-- After a successful last step of `os.MkdirAll` the directory exists. -/
lemma mkdirLast_ok (fs : FS) (p : GoString) (h : (mkdirLast fs p).2 = none) :
    stat (mkdirLast fs p).1 p = some Node.dir := by
  unfold mkdirLast at h ⊢
  rcases hr : osMkdir fs p with ⟨fs1, _ | err⟩
  · dsimp only
    unfold osMkdir at hr
    by_cases hp : p = []
    · rw [if_pos hp] at hr
      cases hr
    · rw [if_neg hp] at hr
      by_cases hs : lookup fs p ≠ none
      · rw [if_pos hs] at hr
        cases hr
      · rw [if_neg hs] at hr
        by_cases hd : parentIsDir fs p = true
        · rw [if_pos hd] at hr
          simp only [Prod.mk.injEq, and_true] at hr
          subst hr
          rw [stat_dir_iff]
          unfold lookup
          rw [if_neg hp]
          by_cases hk : key p = ['/'] ∨ key p = ['.']
          · rw [if_pos hk]
          · rw [if_neg hk]
            exact FS.set_same fs (key p) Node.dir
        · rw [if_neg hd] at hr
          cases hr
  · rw [hr] at h
    dsimp only at h ⊢
    by_cases hst : stat fs1 p = some Node.dir
    · rw [if_pos hst]
      exact hst
    · rw [if_neg hst] at h
      cases h

lemma mkdirAllFuel_zero (fs : FS) (p : GoString) :
    mkdirAllFuel 0 fs p =
      match stat fs p with
      | some Node.dir => (fs, none)
      | some (Node.file _) => (fs, some (pathError "mkdir" p Errno.ENOTDIR))
      | none =>
        match mkdirParent p with
        | none => mkdirLast fs p
        | some _ => (fs, some (pathError "mkdir" p Errno.ENOENT)) := by
  rw [mkdirAllFuel]

lemma mkdirAllFuel_succ (k : Nat) (fs : FS) (p : GoString) :
    mkdirAllFuel (k + 1) fs p =
      match stat fs p with
      | some Node.dir => (fs, none)
      | some (Node.file _) => (fs, some (pathError "mkdir" p Errno.ENOTDIR))
      | none =>
        match mkdirParent p with
        | none => mkdirLast fs p
        | some parent =>
          match mkdirAllFuel k fs parent with
          | (fs1, some err) => (fs1, some err)
          | (fs1, none) => mkdirLast fs1 p := by
  rw [mkdirAllFuel]

/-- After a successful `os.MkdirAll` the directory exists. -/
lemma osMkdirAll_ok (fs : FS) (p : GoString) (h : (osMkdirAll fs p).2 = none) :
    stat (osMkdirAll fs p).1 p = some Node.dir := by
  unfold osMkdirAll at h ⊢
  generalize p.length = k at h ⊢
  cases k with
  | zero =>
    rw [mkdirAllFuel_zero] at h ⊢
    cases hst : stat fs p with
    | some nd =>
      cases nd with
      | dir => simp only [hst]
      | file d =>
        rw [hst] at h
        cases h
    | none =>
      rw [hst] at h
      dsimp only at h ⊢
      cases hpar : mkdirParent p with
      | none =>
        rw [hpar] at h
        exact mkdirLast_ok fs p h
      | some parent =>
        rw [hpar] at h
        cases h
  | succ k =>
    rw [mkdirAllFuel_succ] at h ⊢
    cases hst : stat fs p with
    | some nd =>
      cases nd with
      | dir => simp only [hst]
      | file d =>
        rw [hst] at h
        cases h
    | none =>
      rw [hst] at h
      dsimp only at h ⊢
      cases hpar : mkdirParent p with
      | none =>
        rw [hpar] at h
        exact mkdirLast_ok fs p h
      | some parent =>
        rw [hpar] at h
        dsimp only at h ⊢
        rcases hr : mkdirAllFuel k fs parent with ⟨fs1, _ | err⟩
        · rw [hr] at h
          exact mkdirLast_ok fs1 p h
        · rw [hr] at h
          cases h

/-- Where `os.Create` can create a file, no directory is stored. -/
lemma not_dir_of_stat (fs : FS) (p : GoString) (h1 : p ≠ []) (h2 : HasSuffix p ['/'] = false)
    (h3 : stat fs p ≠ some Node.dir) :
    fs p ≠ some Node.dir ∧ ¬ (key p = ['/'] ∨ key p = ['.']) := by
  have hl : lookup fs p ≠ some Node.dir := fun hl => h3 ((stat_dir_iff fs p).2 hl)
  unfold lookup at hl
  rw [if_neg h1, key_of_no_slash p h1 h2] at hl
  rw [key_of_no_slash p h1 h2]
  by_cases hk : p = ['/'] ∨ p = ['.']
  · rw [if_pos hk] at hl
    exact absurd rfl hl
  · rw [if_neg hk] at hl
    exact ⟨hl, hk⟩

/-- `os.Create` extends the file system. -/
lemma osCreate_extends (fs : FS) (p : GoString) : Extends fs (osCreate fs p).1 := by
  unfold osCreate
  by_cases h1 : p = []
  · rw [if_pos h1]
    exact Extends.refl fs
  · rw [if_neg h1]
    by_cases h2 : HasSuffix p ['/'] = true
    · rw [if_pos h2]
      exact Extends.refl fs
    · rw [if_neg h2]
      by_cases h3 : stat fs p = some Node.dir
      · rw [if_pos h3]
        exact Extends.refl fs
      · rw [if_neg h3]
        by_cases h4 : parentIsDir fs p = true
        · rw [if_pos h4]
          exact Extends.set_file fs p [] (not_dir_of_stat fs p h1 (by simpa using h2) h3).1
        · rw [if_neg h4]
          exact Extends.refl fs

/-- The structure of a pass that records no failure for a directory
marker. -/
lemma expandEntryFS_ok_dir (env : Env M C) (zipr : ZipReader) (dir : GoString) (S : FS)
    (h : ZipFile) (hok : (expandEntryFS env zipr dir S h).2 = none)
    (hdir : HasSuffix h.Name ['/'] = true) :
    ∃ zf, h.Open env S zipr = Except.ok zf ∧ (osMkdirAll S (destPath dir h)).2 = none ∧
      (expandEntryFS env zipr dir S h).1 = (osMkdirAll S (destPath dir h)).1 := by
  unfold expandEntryFS at hok ⊢
  cases hopen : h.Open env S zipr with
  | error err =>
    rw [hopen] at hok
    cases hok
  | ok zf =>
    rw [hopen] at hok
    dsimp only at hok ⊢
    rw [if_pos hdir] at hok ⊢
    exact ⟨zf, rfl, hok, rfl⟩

/-- One pass of the loop extends the file system. -/
lemma expandEntryFS_extends (env : Env M C) (zipr : ZipReader) (dir : GoString) (fs : FS)
    (h : ZipFile) : Extends fs (expandEntryFS env zipr dir fs h).1 := by
  unfold expandEntryFS
  cases h.Open env fs zipr with
  | error err => exact Extends.refl fs
  | ok zf =>
    dsimp only
    by_cases hs : HasSuffix h.Name ['/'] = true
    · rw [if_pos hs]
      exact Extends.of_preserves (fun q n hq => osMkdirAll_preserves fs _ q n hq)
    · rw [if_neg hs]
      have hm : Extends fs (osMkdirAll fs (Split (Join dir (Clean h.Name))).1).1 :=
        Extends.of_preserves (fun q n hq => osMkdirAll_preserves fs _ q n hq)
      rcases hmk : osMkdirAll fs (Split (Join dir (Clean h.Name))).1 with ⟨fs2, _ | err⟩
      · rw [hmk] at hm
        dsimp only at hm ⊢
        have hc := osCreate_extends fs2 (Join dir (Clean h.Name))
        rcases hcr : osCreate fs2 (Join dir (Clean h.Name)) with ⟨fs3, err | f⟩
        · rw [hcr] at hc
          exact hm.trans hc
        · obtain ⟨hf, hS2, -⟩ := osCreate_ok fs2 (Join dir (Clean h.Name)) f (by rw [hcr])
          rw [hcr] at hc hS2
          dsimp only at hc hS2 ⊢
          subst hf
          refine (hm.trans hc).trans ?_
          unfold ioCopy
          apply Extends.set_file
          rw [hS2, FS.set_same]
          simp
      · rw [hmk] at hm
        exact hm

/-- The loop extends the file system. -/
lemma expandLoopFS_extends (env : Env M C) (zipr : ZipReader) (dir : GoString)
    (l : List ZipFile) (fs : FS) : Extends fs (expandLoopFS env zipr dir l fs) := by
  induction l generalizing fs with
  | nil => exact Extends.refl fs
  | cons h rest ih =>
    rw [expandLoopFS_cons]
    exact (expandEntryFS_extends env zipr dir fs h).trans (ih _)

/-- Writing twice at a path is writing the second node. -/
lemma FS.set_set (fs : FS) (k : GoString) (a b : Node) : (fs.set k a).set k b = fs.set k b := by
  funext q
  by_cases hq : q = k <;> simp [FS.set_apply, hq]

/-- A pass that recorded no failure records none when it is repeated on an
extension of its result in which the source is as it was, and then it only
rewrites the file of a file entry, with the same content. -/
lemma expandEntryFS_again (env : Env M C) (zipr : ZipReader) (dir : GoString) (S T : FS)
    (h : ZipFile) (hok : (expandEntryFS env zipr dir S h).2 = none)
    (hext : Extends (expandEntryFS env zipr dir S h).1 T)
    (hsrc : ∀ k, srcKey zipr.r = some k → ∃ n, S k = some n ∧ T k = some n)
    (hkeep : ∀ k, srcKey zipr.r = some k → HasSuffix h.Name ['/'] = false →
      destPath dir h ≠ k) :
    (expandEntryFS env zipr dir T h).2 = none ∧
    (HasSuffix h.Name ['/'] = true → (expandEntryFS env zipr dir T h).1 = T) ∧
    (HasSuffix h.Name ['/'] = false → ∃ c,
      (expandEntryFS env zipr dir S h).1 (destPath dir h) = some (Node.file c) ∧
      (expandEntryFS env zipr dir T h).1 = T.set (destPath dir h) (Node.file c)) := by
  have hservedTS : served T zipr.r zipr.size = served S zipr.r zipr.size := by
    apply served_congr
    intro k hk
    obtain ⟨n, hS, hT⟩ := hsrc k hk
    rw [hS, hT]
  by_cases hs : HasSuffix h.Name ['/'] = true
  · obtain ⟨zf, hopen, hmk, hfs⟩ := expandEntryFS_ok_dir env zipr dir S h hok hs
    have hopenT : h.Open env T zipr = Except.ok zf := by
      rw [← hopen]
      exact ZipFile.Open_congr env T S zipr zipr h hservedTS
    have hstat : stat T (destPath dir h) = some Node.dir := by
      apply stat_dir_mono hext
      rw [hfs]
      exact osMkdirAll_ok S _ hmk
    have hT : expandEntryFS env zipr dir T h = (T, none) := by
      unfold expandEntryFS
      rw [hopenT]
      dsimp only
      rw [if_pos hs]
      exact osMkdirAll_of_dir T _ hstat
    rw [hT]
    refine ⟨rfl, fun _ => rfl, fun hf => ?_⟩
    rw [hs] at hf
    cases hf
  · have hfile : HasSuffix h.Name ['/'] = false := by simpa using hs
    obtain ⟨zf, S1, hopen, hmk, hcr, hzf, hfs⟩ :=
      expandEntryFS_ok_file env zipr dir S h hok hfile
    obtain ⟨-, -, hp, hsuf, hnd, hpar⟩ := osCreate_ok S1 (destPath dir h) _ hcr
    have hopenT : h.Open env T zipr = Except.ok zf := by
      rw [← hopen]
      exact ZipFile.Open_congr env T S zipr zipr h hservedTS
    have hS1 : Extends S1 (expandEntryFS env zipr dir S h).1 := by
      rw [hfs]
      refine (osCreate_extends S1 (destPath dir h)).trans ?_
      rw [(osCreate_ok S1 (destPath dir h) _ hcr).2.1]
      apply Extends.set_file
      rw [FS.set_same]
      simp
    have hS1T : Extends S1 T := hS1.trans hext
    have hbase : stat T (Split (destPath dir h)).1 = some Node.dir := by
      apply stat_dir_mono hS1T
      have := osMkdirAll_ok S _ (by rw [hmk])
      rw [hmk] at this
      exact this
    have hkey : key (destPath dir h) = destPath dir h := key_of_no_slash _ hp hsuf
    have hat : (expandEntryFS env zipr dir S h).1 (destPath dir h) =
        some (Node.file (zf.readAll env (S1.set (destPath dir h) (Node.file [])) zipr).bytes) := by
      rw [hfs, FS.set_same]
    obtain ⟨c1, hc1⟩ := (hext (destPath dir h)).2 _ hat
    have hspecial : ¬ (key (destPath dir h) = ['/'] ∨ key (destPath dir h) = ['.']) :=
      (not_dir_of_stat S1 _ hp hsuf hnd).2
    have hndT : stat T (destPath dir h) ≠ some Node.dir := by
      intro hdT
      rw [stat_dir_iff] at hdT
      unfold lookup at hdT
      rw [if_neg hp, if_neg hspecial, hkey, hc1] at hdT
      cases hdT
    have hparT : parentIsDir T (destPath dir h) = true := parentIsDir_mono hS1T _ hpar
    have hcrT : osCreate T (destPath dir h) =
        (T.set (destPath dir h) (Node.file []), Except.ok (destPath dir h)) := by
      unfold osCreate
      rw [if_neg hp, if_neg (by simp [hsuf]), if_neg hndT, if_pos hparT]
    have hreadT : zf.readAll env (T.set (destPath dir h) (Node.file [])) zipr =
        zf.readAll env (S1.set (destPath dir h) (Node.file [])) zipr := by
      apply EntryReader.readAll_congr
      apply served_congr
      intro k hk
      obtain ⟨n, hS, hT⟩ := hsrc k hk
      have hne : k ≠ destPath dir h := fun hkd => hkeep k hk hfile hkd.symm
      rw [FS.set_other _ _ _ k hne, FS.set_other _ _ _ k hne, hT]
      have := osMkdirAll_preserves S (Split (destPath dir h)).1 k n hS
      rw [hmk] at this
      exact this.symm
    have hT : expandEntryFS env zipr dir T h =
        (T.set (destPath dir h)
          (Node.file (zf.readAll env (S1.set (destPath dir h) (Node.file [])) zipr).bytes),
          none) := by
      unfold expandEntryFS
      rw [hopenT]
      dsimp only
      rw [if_neg hs]
      have hmkT := osMkdirAll_of_dir T _ hbase
      unfold destPath at hmkT hcrT hreadT hzf ⊢
      rw [hmkT]
      dsimp only
      rw [hcrT]
      dsimp only
      unfold ioCopy
      rw [FS.set_set, hreadT, hzf]
    rw [hT]
    exact ⟨rfl, fun hd => absurd hd hs, fun _ => ⟨_, hat, rfl⟩⟩

/-- Running the loop again.  `S` is the file system before the entries
`post` in a first run without failure, `F` the file system at the end of
that run, `T` the file system before `post` in the second run: it extends
`F` and differs from `F` only at destinations of file entries of `post`.
When the source is the same in `S` and `T` and is no destination of a file
entry of `post`, the second run records no failure and ends in `F`. -/
lemma expandLoop_again (env : Env M C) (zipr : ZipReader) (dir : GoString)
    (post : List ZipFile) (S T F : FS)
    (hok : expandLoopOk env zipr dir post S) (hF : expandLoopFS env zipr dir post S = F)
    (hext : Extends F T)
    (hdiff : ∀ q, T q ≠ F q →
      ∃ h ∈ post, HasSuffix h.Name ['/'] = false ∧ destPath dir h = q)
    (hsrc : ∀ k, srcKey zipr.r = some k → ∃ n, S k = some n ∧ T k = some n)
    (hkeep : NotOverwritten zipr.r dir post) :
    expandLoopOk env zipr dir post T ∧ expandLoopFS env zipr dir post T = F := by
  induction post generalizing S T with
  | nil =>
    refine ⟨trivial, ?_⟩
    show T = F
    funext q
    by_contra hq
    obtain ⟨h, hmem, -⟩ := hdiff q hq
    cases hmem
  | cons h rest ih =>
    rw [expandLoopOk_cons] at hok
    rw [expandLoopFS_cons] at hF
    obtain ⟨hok1, hokRest⟩ := hok
    have hkeepH : ∀ k, srcKey zipr.r = some k → HasSuffix h.Name ['/'] = false →
        destPath dir h ≠ k := fun k hk hf => hkeep k hk h (List.mem_cons_self _ _) hf
    have hkeepRest : NotOverwritten zipr.r dir rest :=
      fun k hk x hx hf => hkeep k hk x (List.mem_cons_of_mem _ hx) hf
    have hS1F : Extends (expandEntryFS env zipr dir S h).1 F := by
      rw [← hF]
      exact expandLoopFS_extends env zipr dir rest _
    obtain ⟨hTok, hTdir, hTfile⟩ :=
      expandEntryFS_again env zipr dir S T h hok1 (hS1F.trans hext) hsrc hkeepH
    have hsrc1 : ∀ k, srcKey zipr.r = some k →
        ∃ n, (expandEntryFS env zipr dir S h).1 k = some n ∧
          (expandEntryFS env zipr dir T h).1 k = some n := by
      intro k hk
      obtain ⟨n, hS, hT⟩ := hsrc k hk
      have hne : k ≠ destPath dir h ∨ HasSuffix h.Name ['/'] = true := by
        by_cases hs : HasSuffix h.Name ['/'] = true
        · exact Or.inr hs
        · left
          intro hkd
          exact hkeepH k hk (by simpa using hs) hkd.symm
      exact ⟨n, expandEntryFS_frame env zipr dir S h k n hS hne,
        expandEntryFS_frame env zipr dir T h k n hT hne⟩
    have hstep : Extends F (expandEntryFS env zipr dir T h).1 ∧
        ∀ q, (expandEntryFS env zipr dir T h).1 q ≠ F q →
          ∃ x ∈ rest, HasSuffix x.Name ['/'] = false ∧ destPath dir x = q := by
      by_cases hs : HasSuffix h.Name ['/'] = true
      · rw [hTdir hs]
        refine ⟨hext, fun q hq => ?_⟩
        obtain ⟨x, hx, hxf, hxd⟩ := hdiff q hq
        rcases List.mem_cons.1 hx with hxh | hxr
        · rw [hxh, hs] at hxf
          cases hxf
        · exact ⟨x, hxr, hxf, hxd⟩
      · have hfile : HasSuffix h.Name ['/'] = false := by simpa using hs
        obtain ⟨c, hat, hTfs⟩ := hTfile hfile
        obtain ⟨c1, hc1⟩ := (hS1F (destPath dir h)).2 _ hat
        rw [hTfs]
        constructor
        · intro q
          by_cases hq : q = destPath dir h
          · subst hq
            rw [FS.set_same, hc1]
            exact ⟨fun hd => (by cases hd), fun _ _ => ⟨_, rfl⟩⟩
          · rw [FS.set_other T _ _ q hq]
            exact hext q
        · intro q hq
          by_cases hqp : q = destPath dir h
          · subst hqp
            by_contra hno
            push_neg at hno
            apply hq
            rw [FS.set_same, ← hF]
            symm
            apply expandLoopFS_frame env zipr dir rest _ _ _ hat
            intro x hx
            by_cases hxs : HasSuffix x.Name ['/'] = true
            · exact Or.inr hxs
            · left
              intro heq
              exact hno x hx (by simpa using hxs) heq.symm
          · rw [FS.set_other T _ _ q hqp] at hq
            obtain ⟨x, hx, hxf, hxd⟩ := hdiff q hq
            rcases List.mem_cons.1 hx with hxh | hxr
            · rw [hxh] at hxd
              exact absurd hxd.symm hqp
            · exact ⟨x, hxr, hxf, hxd⟩
    obtain ⟨hokT, hFT⟩ := ih (expandEntryFS env zipr dir S h).1 (expandEntryFS env zipr dir T h).1
      hokRest hF hstep.1 hstep.2 hsrc1 hkeepRest
    rw [expandLoopOk_cons, expandLoopFS_cons]
    exact ⟨⟨hTok, hokT⟩, hFT⟩

/-! ### An archive that is overwritten by its own expansion -/

/-- A regular file found under a name is found under that name whenever a
regular file is stored for it. -/
lemma stat_of_key (A B : FS) (p : GoString) (d d1 : List Byte)
    (h : stat A p = some (Node.file d)) (hB : B (key p) = some (Node.file d1)) :
    stat B p = some (Node.file d1) := by
  unfold stat lookup at h ⊢
  by_cases hp : p = []
  · rw [if_pos hp] at h
    cases h
  · rw [if_neg hp] at h ⊢
    by_cases hk : key p = ['/'] ∨ key p = ['.']
    · rw [if_pos hk] at h
      cases h
    · rw [if_neg hk] at h ⊢
      rw [hB]
      dsimp only
      by_cases hs : HasSuffix p ['/'] = true
      · cases hA : A (key p) with
        | none =>
          rw [hA] at h
          cases h
        | some nd =>
          rw [hA] at h
          cases nd with
          | dir => cases h
          | file d0 =>
            dsimp only at h
            rw [if_pos hs] at h
            cases h
      · rw [if_neg hs]

/-- `os.Open` returns a handle on the name it was given. -/
lemma osOpen_ok (fs : FS) (p : GoString) (f : File) (h : osOpen fs p = Except.ok f) :
    f = { name := p } ∧ ∃ n, stat fs p = some n := by
  unfold osOpen at h
  cases hs : stat fs p with
  | none =>
    rw [hs] at h
    cases h
  | some n =>
    rw [hs] at h
    simp only [Except.ok.injEq] at h
    exact ⟨h.symm, n, rfl⟩

/-- A file source that serves bytes is a regular file. -/
lemma served_ok_stat (fs : FS) (f : File) (size : Int) (bs : List Byte)
    (h : served fs (ReaderAt.file f) size = Except.ok bs) :
    ∃ d, stat fs f.name = some (Node.file d) ∧ bs = d.take size.toNat := by
  by_cases hf : ∃ d, stat fs f.name = some (Node.file d)
  · obtain ⟨d, hd⟩ := hf
    rw [served_file fs f d size hd] at h
    simp only [Except.ok.injEq] at h
    exact ⟨d, hd, h.symm⟩
  · push_neg at hf
    rw [served_not_file fs f size hf] at h
    cases h

/-- `zip.NewReader` depends on the file system only through what the source
serves. -/
lemma zipNewReader_congr (env : Env M C) (fs1 fs2 : FS) (r : ReaderAt) (size : Int)
    (h : served fs1 r size = served fs2 r size) :
    zipNewReader env fs1 r size = zipNewReader env fs2 r size := by
  unfold zipNewReader
  rw [h]

/-- An archive file that has been emptied is not an archive. -/
lemma zipNewReader_emptied (env : Env M C) (fs : FS) (f : File) (size : Int)
    (h : stat fs f.name = some (Node.file [])) :
    ∃ e, zipNewReader env fs (ReaderAt.file f) size = Except.error e := by
  obtain ⟨e, he⟩ := env.NewReader_nothing size
  refine ⟨Error.lib e, ?_⟩
  unfold zipNewReader
  rw [served_file fs f [] size h]
  simp only [List.take_nil, he]

/-- On an archive file that has been emptied, a stream delivers no byte. -/
lemma readAll_emptied (env : Env M C) (fs : FS) (zipr : ZipReader) (f : File) (rd : EntryReader)
    (hr : zipr.r = ReaderAt.file f) (h : stat fs f.name = some (Node.file [])) :
    (rd.readAll env fs zipr).bytes = [] := by
  unfold EntryReader.readAll
  rw [hr, served_file fs f [] zipr.size h]
  simp only [List.take_nil]
  exact env.Read_nothing rd

/-- A pass that records no failure leaves the archive file empty when it
found it empty, or when the entry is a file whose destination is the archive
file: `os.Create` truncates the archive, and the stream then delivers no
byte. -/
lemma expandEntryFS_emptied (env : Env M C) (zipr : ZipReader) (dir : GoString) (S : FS)
    (h : ZipFile) (f : File) (d : List Byte) (A : FS) (hr : zipr.r = ReaderAt.file f)
    (hname : stat A f.name = some (Node.file d))
    (hok : (expandEntryFS env zipr dir S h).2 = none)
    (hS : S (key f.name) = some (Node.file []) ∨
      (HasSuffix h.Name ['/'] = false ∧ destPath dir h = key f.name)) :
    (expandEntryFS env zipr dir S h).1 (key f.name) = some (Node.file []) := by
  by_cases hd : HasSuffix h.Name ['/'] = false ∧ destPath dir h = key f.name
  · obtain ⟨hfile, hdest⟩ := hd
    obtain ⟨zf, S1, -, -, -, -, hres⟩ := expandEntryFS_ok_file env zipr dir S h hok hfile
    rw [hres, hdest, FS.set_same]
    have hst : stat (S1.set (key f.name) (Node.file [])) f.name = some (Node.file []) :=
      stat_of_key A _ f.name d [] hname (FS.set_same _ _ _)
    rw [readAll_emptied env _ zipr f zf hr hst]
  · have hS1 : S (key f.name) = some (Node.file []) := by
      rcases hS with hS | hS
      · exact hS
      · exact absurd hS hd
    apply expandEntryFS_frame env zipr dir S h _ _ hS1
    by_cases hs : HasSuffix h.Name ['/'] = true
    · exact Or.inr hs
    · left
      intro heq
      exact hd ⟨by simpa using hs, heq.symm⟩

/-- A loop that records no failure leaves the archive file empty when it
found it empty, or when a file entry has the archive file as destination. -/
lemma expandLoopFS_emptied (env : Env M C) (zipr : ZipReader) (dir : GoString)
    (l : List ZipFile) (S : FS) (f : File) (d : List Byte) (A : FS)
    (hr : zipr.r = ReaderAt.file f) (hname : stat A f.name = some (Node.file d))
    (hok : expandLoopOk env zipr dir l S)
    (hS : S (key f.name) = some (Node.file []) ∨
      ∃ h ∈ l, HasSuffix h.Name ['/'] = false ∧ destPath dir h = key f.name) :
    expandLoopFS env zipr dir l S (key f.name) = some (Node.file []) := by
  induction l generalizing S with
  | nil =>
    rcases hS with hS | ⟨h, hmem, -⟩
    · exact hS
    · cases hmem
  | cons x rest ih =>
    rw [expandLoopOk_cons] at hok
    rw [expandLoopFS_cons]
    by_cases hx : S (key f.name) = some (Node.file []) ∨
        (HasSuffix x.Name ['/'] = false ∧ destPath dir x = key f.name)
    · exact ih _ hok.2
        (Or.inl (expandEntryFS_emptied env zipr dir S x f d A hr hname hok.1 hx))
    · rcases hS with hS | ⟨h, hmem, hh⟩
      · exact absurd (Or.inl hS) hx
      · rcases List.mem_cons.1 hmem with heq | hmem1
        · subst heq
          exact absurd (Or.inr hh) hx
        · exact ih _ hok.2 (Or.inr ⟨h, hmem1, hh⟩)

/-- `ExpandTo` on a bundle whose archive file has been emptied fails before
the loop and changes nothing. -/
lemma ExpandTo_emptied (env : Env M C) (b : Bundle M C) (dir : GoString) (w : World) (f : File)
    (h1 : b.Path = [] → b.r = ReaderAt.file f) (h2 : b.Path ≠ [] → f.name = b.Path)
    (hst : stat w.fs f.name = some (Node.file [])) :
    (b.ExpandTo env dir w).1.fs = w.fs ∧ ∃ e, (b.ExpandTo env dir w).2 = some e := by
  by_cases hp : b.Path = []
  · have hr := h1 hp
    obtain ⟨e, he⟩ := zipNewReader_emptied env w.fs f b.size hst
    have hres : b.ExpandTo env dir w = (w, some e) := by
      simp only [Bundle.ExpandTo, hp, ne_eq, not_true_eq_false, if_false, expandFrom, hr, he]
    rw [hres]
    exact ⟨rfl, e, rfl⟩
  · have hn := h2 hp
    have hst2 : stat w.fs b.Path = some (Node.file []) := by
      rw [← hn]
      exact hst
    have hopen : osOpen w.fs b.Path = Except.ok { name := b.Path } := by
      unfold osOpen
      rw [hst2]
    have hstat : File.Stat w.fs { name := b.Path } =
        Except.ok { Size := (([] : List Byte).length : Int) } := by
      unfold File.Stat
      rw [hst2]
    obtain ⟨e, he⟩ := zipNewReader_emptied env w.fs { name := b.Path }
      (([] : List Byte).length : Int) hst2
    have he1 : zipNewReader env (w.acquire (Handle.file b.Path)).fs
        (ReaderAt.file { name := b.Path }) (([] : List Byte).length : Int) =
          Except.error e := he
    have hres : b.ExpandTo env dir w =
        ((w.acquire (Handle.file b.Path)).release (Handle.file b.Path), some e) := by
      simp only [Bundle.ExpandTo, hp, ne_eq, not_false_eq_true, if_true, hopen, hstat,
        expandFrom, he1]
    rw [hres]
    exact ⟨rfl, e, rfl⟩

/-- `ExpandTo` is the loop once the source has been re-opened and parsed: its
file system is that of the loop, and it returns nil exactly when no entry
fails. -/
lemma ExpandTo_loop (env : Env M C) (b : Bundle M C) (dir : GoString) (w : World)
    (r : ReaderAt) (size : Int) (zipr : ZipReader) (hsrc : Reopened b w r size)
    (hzip : zipNewReader env w.fs r size = Except.ok zipr) :
    (b.ExpandTo env dir w).1.fs = expandLoopFS env zipr dir zipr.File w.fs ∧
    ((b.ExpandTo env dir w).2 = none ↔ expandLoopOk env zipr dir zipr.File w.fs) := by
  obtain ⟨w0, hfs0, -, -, herr, hfs, -⟩ :=
    ExpandTo_of_reopened env b dir w r size zipr hsrc hzip
  obtain ⟨-, hloopfs, he⟩ := expandLoop_spec env zipr dir zipr.File (w0, none)
  simp only [hfs0] at hloopfs he
  constructor
  · rw [hfs, hloopfs]
  · rw [herr, he, ← lastFailure_specSteps_none_iff]
    cases lastFailure (specSteps env zipr dir zipr.File w.fs) <;> simp

/-- The source is re-opened as before on a file system in which the archive
file is as it was. -/
lemma Reopened_of_intact (b : Bundle M C) (w w2 : World) (r : ReaderAt) (size : Int)
    (hsrc : Reopened b w r size) (hintact : ∀ k, srcKey r = some k → w2.fs k = w.fs k) :
    Reopened b w2 r size := by
  rcases hsrc with h | ⟨hp, f, fi, hopen, hstat, hr, hs⟩
  · exact Or.inl h
  · obtain ⟨hf, n, hn⟩ := osOpen_ok w.fs b.Path f hopen
    have hst : stat w2.fs b.Path = stat w.fs b.Path := by
      apply stat_congr
      apply hintact
      rw [hr, hf]
      rfl
    refine Or.inr ⟨hp, f, fi, ?_, ?_, hr, hs⟩
    · unfold osOpen
      rw [hst, hn, hf]
    · subst hf
      unfold File.Stat at hstat ⊢
      have hst1 : stat w2.fs ({ name := b.Path } : File).name = some n := by
        rw [← hn]
        exact hst
      have hn1 : stat w.fs ({ name := b.Path } : File).name = some n := hn
      rw [hn1] at hstat
      rw [hst1]
      cases n with
      | dir => exact hstat
      | file d => exact hstat

/-! ### Idempotence -/

/-- C9, as the code has it: let a first `ExpandTo(dir)` return nil, the
archive having been re-opened and parsed into `zipr`.  A second
`ExpandTo(dir)` on the resulting file system leaves that file system,
directories and file contents, identical.  It returns nil exactly when the
first expansion has left the archive file as it was, which is always so for
a bundle read from bytes; and that is the case exactly when no file entry
has the archive file itself as its destination.  Otherwise the first
expansion has overwritten the archive, and the second returns an error. -/
theorem ExpandTo_idempotent (env : Env M C) (b : Bundle M C) (dir : GoString) (w : World)
    (r : ReaderAt) (size : Int) (zipr : ZipReader)
    (hsrc : Reopened b w r size) (hzip : zipNewReader env w.fs r size = Except.ok zipr)
    (hfirst : (b.ExpandTo env dir w).2 = none) :
    (b.ExpandTo env dir (b.ExpandTo env dir w).1).1.fs = (b.ExpandTo env dir w).1.fs ∧
    ((b.ExpandTo env dir (b.ExpandTo env dir w).1).2 = none ↔
      ∀ k, srcKey r = some k → (b.ExpandTo env dir w).1.fs k = w.fs k) ∧
    ((∀ k, srcKey r = some k → (b.ExpandTo env dir w).1.fs k = w.fs k) ↔
      NotOverwritten r dir zipr.File) := by
  obtain ⟨hF, hnil⟩ := ExpandTo_loop env b dir w r size zipr hsrc hzip
  have hok1 : expandLoopOk env zipr dir zipr.File w.fs := hnil.1 hfirst
  obtain ⟨hzr, -, bs, hserved, hbs, -⟩ := zipNewReader_ok env w.fs r size zipr hzip
  have hstored := served_ok_stored w.fs r size bs hserved
  by_cases hkeep : NotOverwritten r dir zipr.File
  · -- the archive is no destination: it is the same in every state
    have hintact : ∀ k, srcKey r = some k → (b.ExpandTo env dir w).1.fs k = w.fs k := by
      intro k hk
      obtain ⟨d, hd, -⟩ := hstored k hk
      rw [hF, hd]
      apply expandLoopFS_frame env zipr dir zipr.File w.fs k _ hd
      intro h hh
      by_cases hs : HasSuffix h.Name ['/'] = true
      · exact Or.inr hs
      · left
        intro hkd
        exact hkeep k hk h hh (by simpa using hs) hkd.symm
    have hzip2 : zipNewReader env (b.ExpandTo env dir w).1.fs r size = Except.ok zipr := by
      rw [← hzip]
      exact zipNewReader_congr env _ _ r size (served_congr _ _ r size hintact)
    have hsrc2 : Reopened b (b.ExpandTo env dir w).1 r size :=
      Reopened_of_intact b w _ r size hsrc hintact
    obtain ⟨hF2, hnil2⟩ := ExpandTo_loop env b dir (b.ExpandTo env dir w).1 r size zipr hsrc2 hzip2
    have hsrcST : ∀ k, srcKey zipr.r = some k →
        ∃ n, w.fs k = some n ∧ (b.ExpandTo env dir w).1.fs k = some n := by
      intro k hk
      rw [hzr] at hk
      obtain ⟨d, hd, -⟩ := hstored k hk
      exact ⟨Node.file d, hd, by rw [hintact k hk, hd]⟩
    have hkeepZ : NotOverwritten zipr.r dir zipr.File := by
      rw [hzr]
      exact hkeep
    obtain ⟨hok2, hfinal⟩ := expandLoop_again env zipr dir zipr.File w.fs
      (b.ExpandTo env dir w).1.fs (b.ExpandTo env dir w).1.fs hok1 hF.symm (Extends.refl _)
      (fun q hq => absurd rfl hq) hsrcST hkeepZ
    refine ⟨?_, ⟨fun _ => hintact, fun _ => hnil2.2 hok2⟩, ⟨fun _ => hkeep, fun _ => hintact⟩⟩
    rw [hF2]
    exact hfinal
  · -- a file entry has the archive as destination: the archive is emptied
    have hover : ∃ k, srcKey r = some k ∧
        ∃ h ∈ zipr.File, HasSuffix h.Name ['/'] = false ∧ destPath dir h = k := by
      unfold NotOverwritten at hkeep
      push_neg at hkeep
      exact hkeep
    obtain ⟨k, hk, h, hmem, hfile, hdest⟩ := hover
    cases r with
    | bytes data => cases hk
    | file f =>
      simp only [srcKey, Option.some.injEq] at hk
      subst hk
      obtain ⟨d, hname, hbsd⟩ := served_ok_stat w.fs f size bs hserved
      have hempt : (b.ExpandTo env dir w).1.fs (key f.name) = some (Node.file []) := by
        rw [hF]
        exact expandLoopFS_emptied env zipr dir zipr.File w.fs f d w.fs hzr hname hok1
          (Or.inr ⟨h, hmem, hfile, hdest⟩)
      have hstF : stat (b.ExpandTo env dir w).1.fs f.name = some (Node.file []) :=
        stat_of_key w.fs _ f.name d [] hname hempt
      have h1 : b.Path = [] → b.r = ReaderAt.file f := by
        intro hp
        rcases hsrc with ⟨-, hr, -⟩ | ⟨hp1, -⟩
        · exact hr.symm
        · exact absurd hp hp1
      have h2 : b.Path ≠ [] → f.name = b.Path := by
        intro hp
        rcases hsrc with ⟨hp1, -⟩ | ⟨-, f1, fi, hopen, -, hr, -⟩
        · exact absurd hp1 hp
        · simp only [ReaderAt.file.injEq] at hr
          rw [hr, (osOpen_ok w.fs b.Path f1 hopen).1]
      obtain ⟨hfs2, e, he⟩ := ExpandTo_emptied env b dir (b.ExpandTo env dir w).1 f h1 h2 hstF
      have hchanged : ¬ ∀ k, srcKey (ReaderAt.file f) = some k →
          (b.ExpandTo env dir w).1.fs k = w.fs k := by
        intro hint
        have hsame := hint (key f.name) rfl
        rw [hempt, stat_file w.fs f.name d hname] at hsame
        simp only [Option.some.injEq, Node.file.injEq] at hsame
        apply hbs
        rw [hbsd, ← hsame, List.take_nil]
      refine ⟨hfs2, ⟨fun hnone => ?_, fun hint => absurd hint hchanged⟩,
        ⟨fun hint => absurd hint hchanged, fun hk => absurd hk hkeep⟩⟩
      rw [he] at hnone
      cases hnone

/-- The witness of the amended C9: the archive `/b.charm` of the
specification's example is expanded twice into `/srv/T`; the archive file is
left as it was, the second expansion returns nil and changes nothing. -/
theorem ExpandTo_idempotent_witness :
    (charmBundle.ExpandTo demoEnv "/srv/T".toList
      (charmBundle.ExpandTo demoEnv "/srv/T".toList charmWorld).1).1.fs =
      (charmBundle.ExpandTo demoEnv "/srv/T".toList charmWorld).1.fs ∧
    (charmBundle.ExpandTo demoEnv "/srv/T".toList
      (charmBundle.ExpandTo demoEnv "/srv/T".toList charmWorld).1).2 = none ∧
    (charmBundle.ExpandTo demoEnv "/srv/T".toList charmWorld).1.fs "/b.charm".toList =
      some (Node.file [80, 75, 1]) ∧
    (charmBundle.ExpandTo demoEnv "/srv/T".toList charmWorld).1.fs "/srv/T/a/b.txt".toList =
      some (Node.file [104, 101, 108, 108, 111]) :=
  ⟨(ExpandTo_idempotent demoEnv charmBundle "/srv/T".toList charmWorld
      (ReaderAt.file { name := "/b.charm".toList }) 3
      { r := ReaderAt.file { name := "/b.charm".toList }, size := 3, File := demoEntries }
      (Or.inr ⟨by decide, { name := "/b.charm".toList }, { Size := 3 }, rfl, rfl, rfl, rfl⟩)
      rfl (by decide)).1,
    (ExpandTo_idempotent demoEnv charmBundle "/srv/T".toList charmWorld
      (ReaderAt.file { name := "/b.charm".toList }) 3
      { r := ReaderAt.file { name := "/b.charm".toList }, size := 3, File := demoEntries }
      (Or.inr ⟨by decide, { name := "/b.charm".toList }, { Size := 3 }, rfl, rfl, rfl, rfl⟩)
      rfl (by decide)).2.1.2 (fun k hk => by cases hk; decide),
    by decide, by decide⟩

end Charm
